import Mathlib

/-!
Shallow embedding of the docgen Express route-extraction engine:
path normalization, parameter merging, comment tag parsing, comment
resolution, and the AST traversal that recognizes route registrations.
Translated from `src/unnamed/part_000` (utils) and
`src/docgen/backends/express/parser.js` (traversal with chain dedup).
-/

namespace Docgen

/-- JS `\s` whitespace class (ASCII part), used by trim/regex embeddings. -/
def isSpaceChar (c : Char) : Bool :=
  c = ' ' || c = '\t' || c = '\n' || c = '\r' || c = '\x0b' || c = '\x0c'

/-- JS `\w` word-character class: letters, digits, underscore. -/
def isWordChar (c : Char) : Bool :=
  c.isAlphanum || c = '_'

/-- JS `String.prototype.trim` on a char list. -/
def jsTrimChars (cs : List Char) : List Char :=
  ((cs.dropWhile isSpaceChar).reverse.dropWhile isSpaceChar).reverse

/-- JS `String.prototype.trim`. -/
def jsTrim (s : String) : String :=
  String.mk (jsTrimChars s.data)

/-- JS `a || b` on an optional string: `undefined` and `""` are falsy. -/
def jsOrStrD (a : Option String) (dflt : String) : String :=
  match a with
  | some s => if s = "" then dflt else s
  | none => dflt

/-- JS `String.prototype.split` with a single-character separator, on a
char list: consecutive separators yield empty fields, as in JS. -/
def splitCharList (sep : Char) (cs : List Char) : List (List Char) :=
  cs.foldr
    (fun c acc => if c = sep then [] :: acc else (c :: acc.headD []) :: acc.tail)
    [[]]

/-- JS `String.prototype.split` with a single-character separator. -/
def jsSplit (s : String) (sep : Char) : List String :=
  (splitCharList sep s.data).map String.mk

/-- JS `String.prototype.startsWith`. -/
def jsStartsWith (s pfx : String) : Bool :=
  s.data.take pfx.data.length = pfx.data

/-- JS `String.prototype.toUpperCase` (ASCII inputs). -/
def jsToUpper (s : String) : String :=
  String.mk (s.data.map Char.toUpper)

/-- One parameter descriptor, from the path literal or from documentation.
Fields that JS may leave absent are `Option`s. -/
structure Param where
  name : String
  type : Option String
  «in» : String
  required : Bool
  description : Option String
  format : Option String
deriving Repr, DecidableEq

/-- One documented response, produced by `parseReturnsTag`. -/
structure Ret where
  type : String
  statusCode : Nat
  description : String
deriving Repr, DecidableEq

/-- One element of a JS metadata array: arrays under a tag may mix plain
strings with structured Param/Return records. -/
inductive Item where
  | str (s : String)
  | par (p : Param)
  | ret (r : Ret)
deriving Repr, DecidableEq

/-- A tag's value in the metadata object: a scalar string or an array. -/
inductive TagValue where
  | scalar (s : String)
  | arr (items : List Item)
deriving Repr, DecidableEq

/-- The metadata object: insertion-ordered string-keyed mapping. -/
abbrev Metadata := List (String × TagValue)

/-- The JS `.in` field of an array element: only Param records have one. -/
def itemIn : Item → Option String
  | .par p => some p.«in»
  | _ => none

/-- The JS `.name` field of an array element. -/
def itemName : Item → Option String
  | .par p => some p.name
  | _ => none

/-- Object property read `metadata[key]`. -/
def metaGet (m : Metadata) (k : String) : Option TagValue :=
  (m.find? (fun kv => kv.1 = k)).map (·.2)

/-- Object property write `metadata[key] = v`: updates in place when the key
exists, otherwise appends (JS insertion order). -/
def metaSet (m : Metadata) (k : String) (v : TagValue) : Metadata :=
  if m.any (fun kv => kv.1 = k) then
    m.map (fun kv => if kv.1 = k then (k, v) else kv)
  else
    m ++ [(k, v)]

/-- Express `:identifier` markers: first char letter or underscore. -/
def isIdentStart (c : Char) : Bool :=
  c.isAlpha || c = '_'

/-- Express `:identifier` markers: continuation alphanumeric or underscore. -/
def isIdentCont (c : Char) : Bool :=
  c.isAlphanum || c = '_'

/-- Core of `normalizeExpressPath`: the global regex replace of
`:([a-zA-Z_][a-zA-Z0-9_]*)` by `{name}`, scanning left to right and
collecting each marker name in order of occurrence.  The `fuel` argument
only forces structural recursion: any `fuel ≥ cs.length` computes the
replacement (each step consumes at least one character). -/
def normAux : Nat → List Char → List Char × List String
  | _, [] => ([], [])
  | 0, cs => (cs, [])
  | fuel + 1, c :: cs =>
    if c = ':' then
      match cs with
      | d :: rest =>
        if isIdentStart d then
          let name := d :: rest.takeWhile isIdentCont
          let after := rest.dropWhile isIdentCont
          let (tail, ps) := normAux fuel after
          ('{' :: (name ++ '}' :: tail), String.mk name :: ps)
        else
          let (tail, ps) := normAux fuel cs
          (c :: tail, ps)
      | [] =>
        let (tail, ps) := normAux fuel cs
        (c :: tail, ps)
    else
      let (tail, ps) := normAux fuel cs
      (c :: tail, ps)

/-- `normalizeExpressPath` from utils: returns the normalized path and the
structural params, each with `type="string"`, `in="path"`, `required=true`. -/
def normalizeExpressPath (routePath : String) : String × List Param :=
  let (cs, names) := normAux routePath.data.length routePath.data
  (String.mk cs,
   names.map (fun n =>
     { name := n, type := some "string", «in» := "path", required := true,
       description := none, format := none }))

/-- The `metadataLookup` object built by `mergePathParamsWithMetadata`:
only items with `.in === "path"` (hence only Param records) are stored;
assigning an existing key overwrites in place. -/
def buildLookup (metadataParams : List Item) : List (String × Param) :=
  metadataParams.foldl
    (fun m it =>
      match it with
      | .par p =>
        if p.«in» = "path" then
          if m.any (fun kv => kv.1 = p.name) then
            m.map (fun kv => if kv.1 = p.name then (p.name, p) else kv)
          else
            m ++ [(p.name, p)]
        else m
      | _ => m)
    []

/-- `paramName in metadataLookup` followed by the read. -/
def lookupFind (m : List (String × Param)) (k : String) : Option Param :=
  (m.find? (fun kv => kv.1 = k)).map (·.2)

/-- `delete metadataLookup[paramName]`. -/
def lookupDelete (m : List (String × Param)) (k : String) : List (String × Param) :=
  m.filter (fun kv => kv.1 ≠ k)

/-- One iteration of the extracted-params loop of
`mergePathParamsWithMetadata`: merge with the looked-up documented param
(JS `||` falsiness on `type` and `description`, `format` only if truthy),
or emit the extracted param with a generated default description. -/
def mergeStep (acc : List Param × List (String × Param)) (extracted : Param) :
    List Param × List (String × Param) :=
  let (merged, lookup) := acc
  match lookupFind lookup extracted.name with
  | some metadata =>
    let mergedParam : Param :=
      { name := extracted.name,
        type := some (jsOrStrD extracted.type (jsOrStrD metadata.type "string")),
        «in» := "path",
        required := true,
        description := some (jsOrStrD metadata.description
          (extracted.name ++ " parameter")),
        format := match extracted.format with
          | some f => if f = "" then none else some f
          | none => none }
    (merged ++ [mergedParam], lookupDelete lookup extracted.name)
  | none =>
    (merged ++ [{ extracted with
        description := some (extracted.name ++ " parameter") }], lookup)

/-- `mergePathParamsWithMetadata` from utils: merge extracted path params
with documented ones, then append the remaining documented path params. -/
def mergePathParamsWithMetadata (extractedParams : List Param)
    (metadataParams : List Item) : List Param :=
  let lookup := buildLookup metadataParams
  let (merged, lookupRest) := extractedParams.foldl mergeStep ([], lookup)
  merged ++ lookupRest.map (·.2)

/-- Literal fragment of a regex: consume `pre` or fail. -/
def stripLit (pre cs : List Char) : Option (List Char) :=
  if cs.take pre.length = pre then some (cs.drop pre.length) else none

/-- Regex `\s+`: at least one whitespace char, maximal munch. -/
def spaces1 (cs : List Char) : Option (List Char) :=
  if (cs.takeWhile isSpaceChar).length > 0 then some (cs.dropWhile isSpaceChar)
  else none

/-- Regex `(\w+)`: at least one word char, maximal munch. -/
def word1 (cs : List Char) : Option (List Char × List Char) :=
  let w := cs.takeWhile isWordChar
  if w.length > 0 then some (w, cs.dropWhile isWordChar) else none

/-- A single mandatory character of the pattern. -/
def stripChar (c : Char) (cs : List Char) : Option (List Char) :=
  match cs with
  | d :: rest => if d = c then some rest else none
  | [] => none

/-- Regex `\s*-\s*(.*)`: returns the final capture (rest of the line). -/
def dashTail (cs : List Char) : Option (List Char) :=
  match cs.dropWhile isSpaceChar with
  | '-' :: rest => some (rest.dropWhile isSpaceChar)
  | _ => none

/-- Match of `@param\s+{(\w+)}\s+(\w+)\.(\w+)(?:\.required)?\s*-\s*(.*)`
anchored at the current position.  All `\w+` groups are maximal-munch
(each is followed by a non-word character in the pattern, so greedy
matching is exact); the optional `(?:\.required)?` group is tried first
with, then without, the literal — exactly the regex's backtracking. -/
def matchParamAt (cs : List Char) : Option (String × String × String × String) := do
  let cs ← stripLit "@param".data cs
  let cs ← spaces1 cs
  let cs ← stripChar '{' cs
  let (ty, cs) ← word1 cs
  let cs ← stripChar '}' cs
  let cs ← spaces1 cs
  let (nm, cs) ← word1 cs
  let cs ← stripChar '.' cs
  let (loc, cs) ← word1 cs
  let rest ← (match stripLit ".required".data cs with
    | some cs2 =>
      (match dashTail cs2 with
       | some r => some r
       | none => dashTail cs)
    | none => dashTail cs)
  some (String.mk ty, String.mk nm, String.mk loc, String.mk rest)

/-- Unanchored regex search: try the pattern at each position, leftmost
match wins (the JS `String.prototype.match` search loop). -/
def searchFrom (f : List Char → Option α) : List Char → Option α
  | [] => f []
  | c :: rest =>
    match f (c :: rest) with
    | some r => some r
    | none => searchFrom f rest

/-- JS `String.prototype.includes` on char lists. -/
def containsSub (sub : List Char) : List Char → Bool
  | [] => sub.isEmpty
  | c :: rest => (((c :: rest).take sub.length) = sub) || containsSub sub rest

/-- `parseParamTag` from utils: `required` is true iff the literal
substring `.required` occurs anywhere in the line. -/
def parseParamTag (line : String) : Option Param :=
  match searchFrom matchParamAt line.data with
  | none => none
  | some (ty, nm, loc, rest) =>
    some { name := nm, «in» := loc, type := some ty,
           required := containsSub ".required".data line.data,
           description := some (jsTrim rest), format := none }

/-- `parseInt` on a run of decimal digits. -/
def digitsToNat (ds : List Char) : Nat :=
  ds.foldl (fun n c => n * 10 + (c.toNat - '0'.toNat)) 0

/-- Match of `@returns\s+{(\w+)}\s+(\d{3})\s*-\s*(.*)` anchored at the
current position: exactly three digits, then `\s*-\s*` and the rest. -/
def matchReturnsAt (cs : List Char) : Option (String × Nat × String) := do
  let cs ← stripLit "@returns".data cs
  let cs ← spaces1 cs
  let cs ← stripChar '{' cs
  let (ty, cs) ← word1 cs
  let cs ← stripChar '}' cs
  let cs ← spaces1 cs
  let ds := cs.take 3
  if ds.length = 3 && ds.all Char.isDigit then
    let rest ← dashTail (cs.drop 3)
    some (String.mk ty, digitsToNat ds, String.mk rest)
  else none

/-- `parseReturnsTag` from utils. -/
def parseReturnsTag (line : String) : Option Ret :=
  match searchFrom matchReturnsAt line.data with
  | none => none
  | some (ty, code, rest) =>
    some { type := ty, statusCode := code, description := jsTrim rest }

/-- Per-line block-comment decoration strip:
`line.replace(/^\s*\*\s?/, "").trim()`. -/
def stripCommentLine (l : String) : String :=
  let cs := l.data
  let replaced :=
    match cs.dropWhile isSpaceChar with
    | '*' :: r =>
      (match r with
       | c :: r2 => if isSpaceChar c then r2 else c :: r2
       | [] => [])
    | _ => cs
  String.mk (jsTrimChars replaced)

/-- The line preparation of `extractCommentMetadata`: split on newlines,
strip decoration, drop empty lines. -/
def commentLines (value : String) : List String :=
  ((jsSplit value '\n').map stripCommentLine).filter (fun l => l ≠ "")

/-- The one runtime failure mode the embedding tracks: a JS `TypeError`
(reading a property of `undefined`, or calling a missing method). -/
inductive JsErr where
  | typeError
deriving Repr, DecidableEq

/-- `if (!metadata[key]) metadata[key] = []; metadata[key].push(x)`:
initializes when the current value is falsy (absent or `""`), pushes onto
arrays, and raises a `TypeError` when the value is a non-empty scalar
string (strings have no `push`). -/
def metaPush (m : Metadata) (k : String) (x : Item) : Except JsErr Metadata :=
  match metaGet m k with
  | none => .ok (metaSet m k (.arr [x]))
  | some (.scalar s) =>
    if s = "" then .ok (metaSet m k (.arr [x])) else .error .typeError
  | some (.arr l) => .ok (metaSet m k (.arr (l ++ [x])))

/-- The generic-tag accumulation of `extractCommentMetadata`: a truthy
scalar becomes a two-element array on repetition, arrays append, and a
falsy or absent value is (re)assigned the scalar. -/
def genericAdd (m : Metadata) (k v : String) : Metadata :=
  match metaGet m k with
  | some (.scalar s) =>
    if s = "" then metaSet m k (.scalar v)
    else metaSet m k (.arr [.str s, .str v])
  | some (.arr l) => metaSet m k (.arr (l ++ [.str v]))
  | none => metaSet m k (.scalar v)

/-- `const [tag, ...rest] = line.split(" ")`, with
`key = tag.slice(1).trim()` and `value = rest.join(" ").trim()`. -/
def lineKeyValue (line : String) : String × String :=
  let parts := jsSplit line ' '
  (jsTrim ((parts.headD "").drop 1), jsTrim (String.intercalate " " parts.tail))

/-- One iteration of the line loop of `extractCommentMetadata`.  Note the
fall-through: a `@param`/`@returns` line whose specialized grammar fails
is handled by the generic-tag branch. -/
def processLine (st : List String × Metadata) (line : String) :
    Except JsErr (List String × Metadata) :=
  let (descriptionLines, metadata) := st
  if jsStartsWith line "@" then
    let (key, value) := lineKeyValue line
    if key = "param" then
      match parseParamTag line with
      | some parsed => do
        let m ← metaPush metadata "param" (.par parsed)
        .ok (descriptionLines, m)
      | none => .ok (descriptionLines, genericAdd metadata key value)
    else if key = "returns" then
      match parseReturnsTag line with
      | some parsed => do
        let m ← metaPush metadata "returns" (.ret parsed)
        .ok (descriptionLines, m)
      | none => .ok (descriptionLines, genericAdd metadata key value)
    else
      .ok (descriptionLines, genericAdd metadata key value)
  else
    .ok (descriptionLines ++ [line], metadata)

/-- The line loop plus `descriptionLines.join(" ")`. -/
def processLines (lines : List String) : Except JsErr (String × Metadata) := do
  let (d, m) ← lines.foldlM processLine ([], [])
  .ok (String.intercalate " " d, m)

/-- Body of `extractCommentMetadata` once the comment list is chosen:
empty or missing list yields `("", {})`, otherwise the last comment block
is parsed. -/
def extractMetadataOfComments (comments : Option (List String)) :
    Except JsErr (String × Metadata) :=
  match comments with
  | none => .ok ("", [])
  | some cs =>
    if cs.length = 0 then .ok ("", [])
    else processLines (commentLines (cs.getLastD ""))

/-- The fragment of the Babel AST the parser inspects.  `lead`/`trail`
model `leadingComments`/`trailingComments` (absent vs present-but-empty
matters for JS truthiness); comment blocks are their raw text values.
`anon` stands for any other expression (e.g. an arrow function). -/
inductive Node where
  | call (callee : Node) (args : List Node) (spanS spanE : Nat)
      (lead : Option (List String)) (trail : Option (List String))
  | member (obj : Node) (prop : String)
  | ident (name : String) (lead : Option (List String))
  | strLit (value : String) (lead : Option (List String))
  | exprStmt (e : Node) (lead : Option (List String))
  | program (body : List Node)
  | anon (lead : Option (List String))

/-- `node.leadingComments`. -/
def Node.leading : Node → Option (List String)
  | .call _ _ _ _ l _ => l
  | .ident _ l => l
  | .strLit _ l => l
  | .exprStmt _ l => l
  | .anon l => l
  | .member _ _ => none
  | .program _ => none

/-- `node.trailingComments`. -/
def Node.trailing : Node → Option (List String)
  | .call _ _ _ _ _ t => t
  | _ => none

/-- `node.name` (only Identifier nodes have one). -/
def Node.name : Node → Option String
  | .ident n _ => some n
  | _ => none

/-- `node.value` (only literal nodes have one). -/
def Node.value : Node → Option String
  | .strLit v _ => some v
  | _ => none

/-- `node.arguments` of a call (empty for other nodes). -/
def Node.argsOf : Node → List Node
  | .call _ a _ _ _ _ => a
  | _ => []

/-- `node.type === "CallExpression"`. -/
def Node.isCall : Node → Bool
  | .call _ _ _ _ _ _ => true
  | _ => false

/-- `node.type === "ExpressionStatement"`. -/
def Node.isExprStmt : Node → Bool
  | .exprStmt _ _ => true
  | _ => false

/-- Truthiness of `node.leadingComments?.length`. -/
def leadNonempty (n : Node) : Bool :=
  match n.leading with
  | some l => l.length != 0
  | none => false

/-- `extractCommentMetadata` from utils:
`path.node.leadingComments || path.parent?.leadingComments` (a present but
empty array short-circuits the `||`), then parse the last block. -/
def extractCommentMetadata (n : Node) (parent : Option Node) :
    Except JsErr (String × Metadata) :=
  extractMetadataOfComments
    (match n.leading with
     | some l => some l
     | none => parent.bind Node.leading)

/-- `getCommentNodes` from the utils-side parser: precedence own leading
comments, then the terminal handler argument's, then (first method only)
the base route call's; otherwise none. -/
def getCommentNodes (methodNode : Node) (isFirstMethod : Bool)
    (baseRouteNode : Node) : List String :=
  if leadNonempty methodNode then methodNode.leading.getD []
  else
    match methodNode.argsOf.getLast? with
    | some lastArg =>
      if leadNonempty lastArg then lastArg.leading.getD []
      else if isFirstMethod && leadNonempty baseRouteNode then
        baseRouteNode.leading.getD []
      else []
    | none =>
      if isFirstMethod && leadNonempty baseRouteNode then
        baseRouteNode.leading.getD []
      else []

/-- Modelled from the spec: `extractChainedRouteMetadata` is imported from
`./utils` by the parser but its definition is not among the source files.
Per spec §4.3 it selects, in order: the method call's own leading
comments; the terminal handler argument's; for the first chain segment
only, the enclosing statement's (or base route call's); for a non-first
segment, the trailing comments of the previous method call.  The chosen
block is then parsed exactly like `extractCommentMetadata`. -/
def extractChainedRouteMetadata (node : Node) (isFirst : Bool)
    (stmtOrBase : Node) (prev : Option Node) :
    Except JsErr (String × Metadata) :=
  let comments : List String :=
    if leadNonempty node then node.leading.getD []
    else
      match node.argsOf.getLast? with
      | some lastArg =>
        if leadNonempty lastArg then lastArg.leading.getD []
        else if isFirst && leadNonempty stmtOrBase then stmtOrBase.leading.getD []
        else if !isFirst then
          (match prev with
           | some pn => pn.trailing.getD []
           | none => [])
        else []
      | none =>
        if isFirst && leadNonempty stmtOrBase then stmtOrBase.leading.getD []
        else if !isFirst then
          (match prev with
           | some pn => pn.trailing.getD []
           | none => [])
        else []
  extractMetadataOfComments (some comments)

/-- `arg.name || "<anonymous>"`. -/
def middlewareName (n : Node) : String :=
  jsOrStrD n.name "<anonymous>"

/-- The HTTP method list of the parser. -/
def httpMethods : List String :=
  ["get", "post", "put", "delete", "patch", "head", "options"]

/-- One Route record. -/
structure Route where
  method : String
  path : String
  description : String
  middlewares : List String
  metadata : Metadata
deriving Repr, DecidableEq

/-- `metadata.param || []` followed by the `.filter` call: a truthy scalar
under `param` is a string, and strings have no `.filter`, so that raises
a `TypeError`. -/
def originalParamsOf (metadata : Metadata) : Except JsErr (List Item) :=
  match metaGet metadata "param" with
  | none => .ok []
  | some (.scalar s) => if s = "" then .ok [] else .error .typeError
  | some (.arr l) => .ok l

/-- The parameter assembly shared by both branches of `parseFile`:
`allParams = [...mergePathParamsWithMetadata(extracted, original),
...original.filter(p => p.in !== "path")]`. -/
def allParamsOf (routePath : String) (originalParams : List Item) : List Item :=
  let extracted := (normalizeExpressPath routePath).2
  let nonPathParams := originalParams.filter (fun it => itemIn it ≠ some "path")
  (mergePathParamsWithMetadata extracted originalParams).map Item.par
    ++ nonPathParams

/-- The normalize-merge-update sequence of `parseFile`: returns the
normalized path and the updated metadata (with `param` replaced by the
merged list whenever that list is non-empty). -/
def routeParamsAndMeta (metadata : Metadata) (routePath : String) :
    Except JsErr (String × Metadata) := do
  let originalParams ← originalParamsOf metadata
  let allParams := allParamsOf routePath originalParams
  let updated :=
    if allParams.length > 0 then metaSet metadata "param" (.arr allParams)
    else metadata
  .ok ((normalizeExpressPath routePath).1, updated)

/-- The direct-registration branch of the `CallExpression` visitor:
`app.get(path, ...)` / `router.post(path, ...)`.  Reading
`args[0].value` of a missing argument, and normalizing a non-literal
(hence `undefined`) path, are `TypeError`s, exactly as in JS. -/
def directRoutes (parent : Option Node) (n : Node) : Except JsErr (List Route) :=
  match n with
  | .call (.member obj prop) args _ _ _ _ =>
    if (obj.name = some "app" || obj.name = some "router")
        && httpMethods.contains prop then do
      let method := jsToUpper prop
      let arg0 ← match args.head? with
        | some a => Except.ok a
        | none => Except.error JsErr.typeError
      let routePath := arg0.value
      let middlewares := ((args.drop 1).dropLast).map middlewareName
      let (description, metadata) ← extractCommentMetadata n parent
      let rp ← match routePath with
        | some s => Except.ok s
        | none => Except.error JsErr.typeError
      let (normalizedPath, updatedMetadata) ← routeParamsAndMeta metadata rp
      .ok [{ method := method, path := normalizedPath,
             description := description, middlewares := middlewares,
             metadata := updatedMetadata }]
    else .ok []
  | _ => .ok []

/-- One entry of the parser's `chainMethods` array. -/
structure ChainSeg where
  method : String
  node : Node
  args : List Node

/-- The leftward chain walk of the parser: collect every HTTP-method
segment (in chain order) until a `route(path)` call on `router`/`app` is
reached; returns the segments and, if found, the base call together with
`arguments[0]?.value`. -/
def collectChain : Node → List ChainSeg × Option (Option String × Node)
  | .call (.member obj prop) args s e l t =>
    if httpMethods.contains prop then
      let (segs, base) := collectChain obj
      (segs ++ [⟨jsToUpper prop, .call (.member obj prop) args s e l t, args⟩], base)
    else if prop = "route" && (obj.name = some "router" || obj.name = some "app") then
      ([], some (args.head?.bind Node.value, .call (.member obj prop) args s e l t))
    else
      collectChain obj
  | _ => ([], none)

/-- `spanS` of a call node (0 elsewhere; only used on call nodes). -/
def Node.spanStart : Node → Nat
  | .call _ _ s _ _ _ => s
  | _ => 0

/-- `spanE` of a call node. -/
def Node.spanEnd : Node → Nat
  | .call _ _ _ e _ _ => e
  | _ => 0

/-- The per-segment loop body of the chained branch: for the segment at
`index`, pick the comment sources (`isFirstInChain`, the previous method
node), extract metadata, normalize the path and append one Route. -/
def chainEmit (chainMethods : List ChainSeg) (stmtOrBase : Node)
    (routePath : String) (acc : List Route) (im : Nat × ChainSeg) :
    Except JsErr (List Route) := do
  let (index, mi) := im
  let isFirstInChain := index == 0
  let middlewares := mi.args.dropLast.map middlewareName
  let previousMethodInChain :=
    if index > 0 then (chainMethods.get? (index - 1)).map (·.node)
    else none
  let (description, metadata) ←
    extractChainedRouteMetadata mi.node isFirstInChain
      stmtOrBase previousMethodInChain
  let (normalizedPath, updatedMetadata) ←
    routeParamsAndMeta metadata routePath
  let r : Route :=
    { method := mi.method, path := normalizedPath,
      description := description, middlewares := middlewares,
      metadata := updatedMetadata }
  Except.ok (acc ++ [r])

/-- The chained-registration branch of the visitor.  Takes the dedup set,
returns the routes it emits and the updated set.  `chainKey` is
`routePath:start:end` of the base route call; a key already in the set
skips the chain entirely.  The `expressionStatement` lookup follows the
source: it inspects `path.parent` and then reads `.parent` of a plain
node, which is `undefined`, so it finds the statement only when it is the
direct parent. -/
def chainedStep (processed : List String) (parent : Option Node) (n : Node) :
    Except JsErr (List Route × List String) :=
  match n with
  | .call (.member obj prop) _ _ _ _ _ =>
    if obj.isCall && httpMethods.contains prop then
      let (chainMethods, baseInfo) := collectChain n
      match baseInfo with
      | none => .ok ([], processed)
      | some (pathVal, baseRouteCall) =>
        let routePath := jsOrStrD pathVal "<unknown>"
        if routePath ≠ "<unknown>" && chainMethods.length > 0 then
          let chainKey := routePath ++ ":" ++ toString baseRouteCall.spanStart
            ++ ":" ++ toString baseRouteCall.spanEnd
          if processed.contains chainKey then .ok ([], processed)
          else do
            let stmtOrBase :=
              match parent with
              | some p => if p.isExprStmt then p else baseRouteCall
              | none => baseRouteCall
            let routes ← chainMethods.enum.foldlM
              (chainEmit chainMethods stmtOrBase routePath) []
            .ok (routes, processed ++ [chainKey])
        else .ok ([], processed)
    else .ok ([], processed)
  | _ => .ok ([], processed)

/-- Traversal state: emitted routes and the `processedChains` set. -/
structure PState where
  routes : List Route
  processed : List String
deriving Repr, DecidableEq

/-- The `CallExpression` visitor: the direct branch runs first, then the
chained branch, both on the same node. -/
def visit (st : PState) (parent : Option Node) (n : Node) :
    Except JsErr PState := do
  let r1 ← directRoutes parent n
  let (r2, processed) ← chainedStep st.processed parent n
  .ok ⟨st.routes ++ r1 ++ r2, processed⟩

mutual

/-- Pre-order collection of every `CallExpression` node together with its
AST parent — the visitation order of the Babel traversal. -/
def preorderCallsP (parent : Option Node) (n : Node) :
    List (Option Node × Node) :=
  match n with
  | .call c args _ _ _ _ =>
    (parent, n) :: (preorderCallsP (some n) c ++ preorderCallsList (some n) args)
  | .member obj _ => preorderCallsP (some n) obj
  | .exprStmt e _ => preorderCallsP (some n) e
  | .program body => preorderCallsList (some n) body
  | _ => []

/-- Pre-order collection over a node list. -/
def preorderCallsList (parent : Option Node) (ns : List Node) :
    List (Option Node × Node) :=
  match ns with
  | [] => []
  | x :: rest => preorderCallsP parent x ++ preorderCallsList parent rest

end

/-- The whole traversal of `parseFile` on one syntax tree. -/
def parseTraversal (t : Node) : Except JsErr PState :=
  (preorderCallsP none t).foldlM (fun st pn => visit st pn.1 pn.2) ⟨[], []⟩

/-- `parseFile`'s observable output: the Route list (or the propagated
exception). -/
def parseTree (t : Node) : Except JsErr (List Route) :=
  (parseTraversal t).map (·.routes)

/-! Claim-support definitions. -/

/-- Names of the path-location entries of a parameter list. -/
def pathParamNames (items : List Item) : List String :=
  (items.filter (fun it => itemIn it = some "path")).filterMap itemName

/-- The structured Param records currently stored under `param`. -/
def parItems (m : Metadata) : List Param :=
  match metaGet m "param" with
  | some (.arr l) => l.filterMap (fun it => match it with | .par p => some p | _ => none)
  | _ => []

/-- The structured Return records currently stored under `returns`. -/
def retItems (m : Metadata) : List Ret :=
  match metaGet m "returns" with
  | some (.arr l) => l.filterMap (fun it => match it with | .ret r => some r | _ => none)
  | _ => []

/-- The tag name of a line, when the line is a tag line. -/
def lineKeyOf (line : String) : Option String :=
  if jsStartsWith line "@" then some (lineKeyValue line).1 else none

/-- A comment block is grammar-clean when each of its `@param`/`@returns`
lines satisfies the corresponding tag grammar. -/
def goodTagLines (lines : List String) : Prop :=
  ∀ l ∈ lines,
    (lineKeyOf l = some "param" → (parseParamTag l).isSome = true) ∧
    (lineKeyOf l = some "returns" → (parseReturnsTag l).isSome = true)

/-- Specification-side decomposition of a path literal into literal
characters and `:name` markers. -/
inductive PathSeg where
  | lit (c : Char)
  | marker (name : List Char)
deriving Repr, DecidableEq

/-- Render a segment back to source form (`:name` for markers). -/
def renderSeg : PathSeg → List Char
  | .lit c => [c]
  | .marker n => ':' :: n

/-- Render a segment list back to the original path literal. -/
def renderSegs : List PathSeg → List Char
  | [] => []
  | s :: rest => renderSeg s ++ renderSegs rest

/-- Render the normalized form: each marker becomes `{name}`. -/
def renderNormSeg : PathSeg → List Char
  | .lit c => [c]
  | .marker n => '{' :: (n ++ ['}'])

/-- Render the normalized segment list. -/
def renderNormSegs : List PathSeg → List Char
  | [] => []
  | s :: rest => renderNormSeg s ++ renderNormSegs rest

/-- Marker names in first-occurrence order. -/
def markerNames : List PathSeg → List String
  | [] => []
  | .marker n :: rest => String.mk n :: markerNames rest
  | .lit _ :: rest => markerNames rest

/-- A marker name is a well-formed identifier (`[a-zA-Z_][a-zA-Z0-9_]*`). -/
def wfMarker : PathSeg → Bool
  | .lit _ => true
  | .marker n =>
    match n with
    | [] => false
    | d :: rest => isIdentStart d && rest.all isIdentCont

/-- Canonical adjacency: a `:` literal is not followed by an
identifier-start literal (it would itself start a marker), and a marker
is not followed by an identifier-continuation literal (greedy matching
would absorb it). -/
def wfAdj : List PathSeg → Bool
  | .lit c1 :: .lit c2 :: rest =>
    !(c1 = ':' && isIdentStart c2) && wfAdj (.lit c2 :: rest)
  | .marker _ :: .lit c :: rest =>
    !(isIdentCont c) && wfAdj (.lit c :: rest)
  | _ :: rest => wfAdj rest
  | [] => true

/-- A canonical decomposition: well-formed marker names and canonical
adjacency. -/
def wfSegs (segs : List PathSeg) : Bool :=
  segs.all wfMarker && wfAdj segs

/-- No `:identifier` marker anywhere in the char list. -/
def noMarkerChars : List Char → Bool
  | [] => true
  | c :: cs =>
    if c = ':' then
      match cs with
      | d :: _ => !isIdentStart d && noMarkerChars cs
      | [] => true
    else noMarkerChars cs

/-- Data of one chained method segment, used to build chain trees. -/
structure SegSpec where
  method : String
  args : List Node
  spanS : Nat
  spanE : Nat
  lead : Option (List String)
  trail : Option (List String)

/-- The base `router.route(path)` / `app.route(path)` call node. -/
def mkBaseCall (recv p : String) (bs be : Nat) (blead : Option (List String)) : Node :=
  .call (.member (.ident recv none) "route") [.strLit p none] bs be blead none

/-- The nested call tree of `base.m1(args1).m2(args2)...`. -/
def mkChain (base : Node) (segs : List SegSpec) : Node :=
  segs.foldl
    (fun acc sd => .call (.member acc sd.method) sd.args sd.spanS sd.spanE sd.lead sd.trail)
    base

/-- A chain registration as a whole statement in a program. -/
def chainProgram (base : Node) (segs : List SegSpec) : Node :=
  .program [.exprStmt (mkChain base segs) none]

/-- Leaf expressions: contain no call nodes of their own. -/
def isLeafNode : Node → Bool
  | .ident _ _ => true
  | .anon _ => true
  | .strLit _ _ => true
  | _ => false

/-- Structural `id` param of the merge-precedence scenario. -/
def c2Structural : Param :=
  { name := "id", type := some "string", «in» := "path", required := true,
    description := none, format := none }

/-- Documented `id` param of the merge-precedence scenario. -/
def c2Documented : Param :=
  { name := "id", type := some "string", «in» := "path", required := false,
    description := some "User ID", format := none }

/-- Node with its own leading comment. -/
def c9Own : Node :=
  .call (.member (.ident "app" none) "get")
    [.strLit "/x" none, .anon (some ["* handler docs "])] 0 9
    (some ["* own docs "]) none

/-- Base node with a leading comment. -/
def c9Base : Node :=
  .call (.member (.ident "router" none) "route") [.strLit "/x" none] 0 5
    (some ["* base docs "]) none

/-- Bare node with no comments anywhere. -/
def c9Bare : Node :=
  .call (.member (.ident "app" none) "get") [.strLit "/x" none, .anon none]
    0 9 none none

/-- A direct registration whose path argument is an identifier, not a
literal: `app.get(somePath, handler)`. -/
def c5BadDirect : Node :=
  .program [.exprStmt
    (.call (.member (.ident "app" none) "get")
      [.ident "somePath" none, .anon none] 0 20 none none) none]

/-- A chained registration whose leftward walk never reaches a
`route(...)` builder: `foo.bar().get(handler)`. -/
def c5ChainNoBase : Node :=
  .program [.exprStmt
    (.call (.member
      (.call (.member (.ident "foo" none) "bar") [] 0 5 none none) "get")
      [.anon none] 6 9 none none) none]

/-- The `param` key, when present, holds an array of structured Param
records only. -/
def paramWellFormed (m : Metadata) : Prop :=
  ∀ v, metaGet m "param" = some v →
    ∃ items, v = TagValue.arr items ∧ ∀ it ∈ items, ∃ p, it = Item.par p

/-- The `returns` key, when present, holds an array of structured Return
records only. -/
def returnsWellFormed (m : Metadata) : Prop :=
  ∀ v, metaGet m "returns" = some v →
    ∃ items, v = TagValue.arr items ∧ ∀ it ∈ items, ∃ r, it = Item.ret r

/-- The `(name, param)` pair a documented item contributes to the merge
lookup, when it is a path-location Param. -/
def pathEntryOf : Item → Option (String × Param)
  | .par q => if q.«in» = "path" then some (q.name, q) else none
  | _ => none

/-- Documented path params that survive the merge: path-location entries
whose name is none of the structural (extracted) names. -/
def leftoverPred (esNames : List String) (it : Item) : Bool :=
  (itemIn it = some "path") && esNames.all (fun n => !(((itemName it).getD "") = n))

/-- First of two documented path params sharing the name `a`. -/
def c8DocFirst : Param :=
  { name := "a", type := some "string", «in» := "path", required := false,
    description := some "first", format := none }

/-- Second of two documented path params sharing the name `a`. -/
def c8DocSecond : Param :=
  { name := "a", type := some "string", «in» := "path", required := false,
    description := some "second", format := none }

/-- Spec-side Param record of one structural marker. -/
def markerParam (n : String) : Param :=
  { name := n, type := some "string", «in» := "path", required := true,
    description := none, format := none }

/-- Concrete decomposition of the literal `/u/:id`. -/
def c4Segs : List PathSeg :=
  [.lit '/', .lit 'u', .lit '/', .marker ['i', 'd']]

/-- The `chainMethods` array that `collectChain` produces for a chain
built from `acc` by the given segment specs. -/
def chainSegsAux (acc : Node) : List SegSpec → List ChainSeg
  | [] => []
  | sd :: rest =>
    ChainSeg.mk (jsToUpper sd.method)
      (Node.call (.member acc sd.method) sd.args sd.spanS sd.spanE sd.lead sd.trail)
      sd.args
    :: chainSegsAux
      (Node.call (.member acc sd.method) sd.args sd.spanS sd.spanE sd.lead sd.trail)
      rest

/-! ### Theorems -/

/-- C2: merging a structural path parameter with a documented path
parameter of the same name yields a single Param whose type prefers the
structural type, whose `required` is unconditionally true, whose
description prefers a non-empty documented description and otherwise the
generated default, and whose format is carried from the structural param
when present. -/
theorem claim_C2_merge_fields (s d : Param)
    (hin : d.«in» = "path") (hname : d.name = s.name) :
    ∃ m, mergePathParamsWithMetadata [s] [.par d] = [m] ∧
      m.name = s.name ∧ m.«in» = "path" ∧ m.required = true ∧
      (∀ t, s.type = some t → t ≠ "" → m.type = some t) ∧
      (s.type = none → ∀ t, d.type = some t → t ≠ "" → m.type = some t) ∧
      (s.type = none → d.type = none → m.type = some "string") ∧
      (∀ ds, d.description = some ds → ds ≠ "" → m.description = some ds) ∧
      ((d.description = none ∨ d.description = some "") →
        m.description = some (s.name ++ " parameter")) ∧
      (∀ f, s.format = some f → f ≠ "" → m.format = some f) ∧
      (s.format = none → m.format = none) := by
  refine ⟨{ name := s.name,
            type := some (jsOrStrD s.type (jsOrStrD d.type "string")),
            «in» := "path", required := true,
            description := some (jsOrStrD d.description (s.name ++ " parameter")),
            format := match s.format with
              | some f => if f = "" then none else some f
              | none => none }, ?_, rfl, rfl, rfl, ?_, ?_, ?_, ?_, ?_, ?_, ?_⟩
  · simp [mergePathParamsWithMetadata, buildLookup, mergeStep, lookupFind,
      lookupDelete, hin, hname]
  · intro t ht hne; simp [jsOrStrD, ht, hne]
  · intro hs t ht hne; simp [jsOrStrD, hs, ht, hne]
  · intro hs hd; simp [jsOrStrD, hs, hd]
  · intro ds hd hne; simp [jsOrStrD, hd, hne]
  · rintro (hd | hd) <;> simp [jsOrStrD, hd]
  · intro f hf hne; simp [hf, hne]
  · intro hf; simp [hf]

/-- C2 witness: the concrete merge-precedence scenario of the spec. -/
theorem claim_C2_witness :
    ∃ m, mergePathParamsWithMetadata [c2Structural] [.par c2Documented] = [m] ∧
      m.description = some "User ID" ∧ m.required = true := by
  obtain ⟨m, hm, _, _, hreq, _, _, _, hdesc, _, _, _⟩ :=
    claim_C2_merge_fields c2Structural c2Documented rfl rfl
  exact ⟨m, hm, hdesc "User ID" rfl (by decide), hreq⟩

/-- C9: comment resolution precedence — a node's own leading comments are
selected first, then the terminal handler argument's, then (for the first
method of a chain only) the base route call's or enclosing statement's;
with no candidate, the comment list is empty and the parse yields an
empty description and empty metadata. -/
theorem claim_C9_comment_precedence (m b : Node) (isF : Bool) :
    (leadNonempty m = true → getCommentNodes m isF b = m.leading.getD []) ∧
    (leadNonempty m = false →
      ∀ la, m.argsOf.getLast? = some la → leadNonempty la = true →
        getCommentNodes m isF b = la.leading.getD []) ∧
    (leadNonempty m = false →
      (∀ la, m.argsOf.getLast? = some la → leadNonempty la = false) →
      isF = true → leadNonempty b = true →
      getCommentNodes m isF b = b.leading.getD []) ∧
    (leadNonempty m = false →
      (∀ la, m.argsOf.getLast? = some la → leadNonempty la = false) →
      (isF = false ∨ leadNonempty b = false) →
      getCommentNodes m isF b = [] ∧
      extractMetadataOfComments (some (getCommentNodes m isF b)) = .ok ("", [])) := by
  refine ⟨?_, ?_, ?_, ?_⟩
  · intro h; simp [getCommentNodes, h]
  · intro h la hla hlane; simp [getCommentNodes, h, hla, hlane]
  · intro h hlas hf hb
    cases hgl : m.argsOf.getLast? with
    | none => simp [getCommentNodes, h, hgl, hf, hb]
    | some la =>
      have hl := hlas la hgl
      simp [getCommentNodes, h, hgl, hl, hf, hb]
  · intro h hlas hfb
    have hgc : getCommentNodes m isF b = [] := by
      cases hgl : m.argsOf.getLast? with
      | none =>
        rcases hfb with hf | hb
        · simp [getCommentNodes, h, hgl, hf]
        · simp [getCommentNodes, h, hgl, hb]
      | some la =>
        have hl := hlas la hgl
        rcases hfb with hf | hb
        · simp [getCommentNodes, h, hgl, hl, hf]
        · simp [getCommentNodes, h, hgl, hl, hb]
    exact ⟨hgc, by simp [hgc, extractMetadataOfComments]⟩

/-- C9 witness: a node with its own comment block wins over a commented
base node, and a comment-free non-first registration parses to empty
description and metadata. -/
theorem claim_C9_witness :
    getCommentNodes c9Own true c9Base = ["* own docs "] ∧
    getCommentNodes c9Bare false c9Base = [] ∧
    extractMetadataOfComments (some (getCommentNodes c9Bare false c9Base)) =
      .ok ("", []) := by
  refine ⟨?_, ?_, ?_⟩
  · exact ((claim_C9_comment_precedence c9Own c9Base true).1 (by decide)).trans rfl
  · exact ((claim_C9_comment_precedence c9Bare c9Base false).2.2.2 (by decide)
      (by intro la hla; cases hla; decide) (Or.inl rfl)).1
  · exact ((claim_C9_comment_precedence c9Bare c9Base false).2.2.2 (by decide)
      (by intro la hla; cases hla; decide) (Or.inl rfl)).2

/-- C5: the code's actual behavior on the claim's inputs — a direct
registration with a non-literal path argument raises a `TypeError`
(`args[0].value` is `undefined` and `normalizeExpressPath` calls
`.replace` on it), aborting the traversal, while a chain that never
reaches a `route(...)` builder is indeed skipped without error. -/
theorem claim_C5_nonliteral_path_throws :
    parseTree c5BadDirect = .error .typeError ∧
    parseTree c5ChainNoBase = .ok [] :=
  ⟨rfl, rfl⟩

theorem assocFind_key {α : Type} :
    ∀ (m : List (String × α)) (k : String) (kv : String × α),
      List.find? (fun x => x.1 = k) m = some kv → kv.1 = k := by
  intro m k kv h
  induction m with
  | nil => simp [List.find?] at h
  | cons hd tl ih =>
    by_cases hh : hd.1 = k
    · rw [List.find?_cons_of_pos _ (by simpa using hh)] at h
      cases h; exact hh
    · rw [List.find?_cons_of_neg _ (by simpa using hh)] at h
      exact ih h

theorem metaGet_metaSet_self (m : Metadata) (k : String) (v : TagValue) :
    metaGet (metaSet m k v) k = some v := by
  unfold metaGet metaSet
  by_cases hany : (m.any (fun kv => kv.1 = k)) = true
  · simp only [hany, if_true, List.find?_map]
    have hpf : ((fun kv : String × TagValue => decide (kv.1 = k)) ∘
        (fun kv : String × TagValue => if kv.1 = k then (k, v) else kv)) =
        (fun kv : String × TagValue => decide (kv.1 = k)) := by
      funext kv; by_cases h : kv.1 = k <;> simp [Function.comp, h]
    rw [hpf]
    obtain ⟨kv0, hmem, hp⟩ := List.any_eq_true.mp hany
    have hsome : (m.find? (fun kv => decide (kv.1 = k))).isSome := by
      rw [List.find?_isSome]; exact ⟨kv0, hmem, hp⟩
    obtain ⟨kv1, hkv1⟩ := Option.isSome_iff_exists.mp hsome
    have hk1 : kv1.1 = k := assocFind_key m k kv1 hkv1
    rw [hkv1]
    simp [hk1]
  · simp only [hany, if_false, List.find?_append]
    have hnone : m.find? (fun kv => decide (kv.1 = k)) = none := by
      cases hf : m.find? (fun kv => decide (kv.1 = k)) with
      | none => rfl
      | some kv1 =>
        exfalso
        apply hany
        rw [List.any_eq_true]
        refine ⟨kv1, List.mem_of_find?_eq_some hf, ?_⟩
        simpa using assocFind_key m k kv1 hf
    simp [hnone]

theorem metaGet_metaSet_ne (m : Metadata) {k k' : String} (v : TagValue)
    (h : k' ≠ k) : metaGet (metaSet m k v) k' = metaGet m k' := by
  unfold metaGet metaSet
  by_cases hany : (m.any (fun kv => kv.1 = k)) = true
  · simp only [hany, if_true, List.find?_map]
    have hpf : ((fun kv : String × TagValue => decide (kv.1 = k')) ∘
        (fun kv : String × TagValue => if kv.1 = k then (k, v) else kv)) =
        (fun kv : String × TagValue => decide (kv.1 = k')) := by
      funext kv
      by_cases hk : kv.1 = k
      · have h1 : (k = k') = (kv.1 = k') := by rw [hk]
        simp [Function.comp, hk, h1]
      · simp [Function.comp, hk]
    rw [hpf]
    cases hf : m.find? (fun kv => decide (kv.1 = k')) with
    | none => simp
    | some kv1 =>
      have hk1 : kv1.1 = k' := assocFind_key m k' kv1 hf
      have hne : ¬(kv1.1 = k) := fun hh => h (hk1 ▸ hh ▸ rfl)
      simp [hne]
  · simp only [hany, if_false, List.find?_append]
    have hone : List.find? (fun kv => decide (kv.1 = k')) [(k, v)] = none := by
      have hkk : ¬(k = k') := Ne.symm h
      simp [hkk]
    simp [hone]

theorem genericAdd_eq_metaSet (m : Metadata) (k v : String) :
    ∃ x, genericAdd m k v = metaSet m k x := by
  unfold genericAdd
  cases hg : metaGet m k with
  | none => exact ⟨_, rfl⟩
  | some tv =>
    cases tv with
    | scalar s =>
      by_cases hs : s = ""
      · exact ⟨.scalar v, by simp [hs]⟩
      · exact ⟨.arr [.str s, .str v], by simp [hs]⟩
    | arr l => exact ⟨_, rfl⟩

theorem parItems_genericAdd (m : Metadata) (k v : String) :
    parItems (genericAdd m k v) = parItems m := by
  by_cases hk : k = "param"
  · subst hk
    unfold genericAdd parItems
    cases hg : metaGet m "param" with
    | none => simp [metaGet_metaSet_self]
    | some tv =>
      cases tv with
      | scalar s =>
        by_cases hs : s = "" <;> simp [hs, metaGet_metaSet_self]
      | arr l =>
        simp [metaGet_metaSet_self, List.filterMap_append]
  · have hne : ("param" : String) ≠ k := fun hh => hk hh.symm
    obtain ⟨x, hx⟩ := genericAdd_eq_metaSet m k v
    rw [hx]
    unfold parItems
    rw [metaGet_metaSet_ne m x hne]

theorem retItems_genericAdd (m : Metadata) (k v : String) :
    retItems (genericAdd m k v) = retItems m := by
  by_cases hk : k = "returns"
  · subst hk
    unfold genericAdd retItems
    cases hg : metaGet m "returns" with
    | none => simp [metaGet_metaSet_self]
    | some tv =>
      cases tv with
      | scalar s =>
        by_cases hs : s = "" <;> simp [hs, metaGet_metaSet_self]
      | arr l =>
        simp [metaGet_metaSet_self, List.filterMap_append]
  · have hne : ("returns" : String) ≠ k := fun hh => hk hh.symm
    obtain ⟨x, hx⟩ := genericAdd_eq_metaSet m k v
    rw [hx]
    unfold retItems
    rw [metaGet_metaSet_ne m x hne]

/-- C6: (amended) a comment line that starts the `@param` or `@returns`
tag but fails the tag grammar emits no structured Param/Return record and
raises no error on that line, but it is not dropped: it falls through to
the generic tag handling, which stores the line remainder as a plain tag
value. -/
theorem claim_C6_amended (desc : List String) (m : Metadata) (line : String)
    (hstart : jsStartsWith line "@" = true) :
    ((lineKeyValue line).1 = "param" → parseParamTag line = none →
      processLine (desc, m) line =
        .ok (desc, genericAdd m "param" (lineKeyValue line).2) ∧
      parItems (genericAdd m "param" (lineKeyValue line).2) = parItems m ∧
      retItems (genericAdd m "param" (lineKeyValue line).2) = retItems m) ∧
    ((lineKeyValue line).1 = "returns" → parseReturnsTag line = none →
      processLine (desc, m) line =
        .ok (desc, genericAdd m "returns" (lineKeyValue line).2) ∧
      parItems (genericAdd m "returns" (lineKeyValue line).2) = parItems m ∧
      retItems (genericAdd m "returns" (lineKeyValue line).2) = retItems m) := by
  constructor
  · intro hkey hparse
    refine ⟨?_, parItems_genericAdd m "param" _, retItems_genericAdd m "param" _⟩
    unfold processLine
    simp [hstart, hkey, hparse]
  · intro hkey hparse
    refine ⟨?_, parItems_genericAdd m "returns" _, retItems_genericAdd m "returns" _⟩
    unfold processLine
    simp [hstart, hkey, hparse]

/-- C6 counterexample: a malformed `@returns` line does add an entry to
the metadata mapping — the scalar remainder under the `returns` key —
contradicting the claim that nothing is added for that line. -/
theorem claim_C6_counterexample :
    processLines ["@returns oops"] = .ok ("", [("returns", .scalar "oops")]) := rfl

/-- C6 witness: concrete malformed `@param` line. -/
theorem claim_C6_witness :
    processLine ([], []) "@param foo" =
      .ok ([], genericAdd [] "param" (lineKeyValue "@param foo").2) ∧
    parItems (genericAdd [] "param" (lineKeyValue "@param foo").2) =
      parItems ([] : Metadata) := by
  have h := (claim_C6_amended [] [] "@param foo" (by decide)).1 (by decide) (by decide)
  exact ⟨h.1, h.2.1⟩

theorem paramWF_nil : paramWellFormed [] := by
  intro v hv; simp [metaGet] at hv

theorem returnsWF_nil : returnsWellFormed [] := by
  intro v hv; simp [metaGet] at hv

theorem paramWF_of_eq {m m' : Metadata}
    (h : metaGet m' "param" = metaGet m "param") (hp : paramWellFormed m) :
    paramWellFormed m' := by
  intro v hv; exact hp v (h ▸ hv)

theorem returnsWF_of_eq {m m' : Metadata}
    (h : metaGet m' "returns" = metaGet m "returns") (hr : returnsWellFormed m) :
    returnsWellFormed m' := by
  intro v hv; exact hr v (h ▸ hv)

theorem processLine_invariant (st : List String × Metadata) (l : String)
    (hgood : (lineKeyOf l = some "param" → (parseParamTag l).isSome = true) ∧
      (lineKeyOf l = some "returns" → (parseReturnsTag l).isSome = true))
    (hp : paramWellFormed st.2) (hr : returnsWellFormed st.2) :
    ∃ st', processLine st l = .ok st' ∧
      paramWellFormed st'.2 ∧ returnsWellFormed st'.2 := by
  obtain ⟨desc, m⟩ := st
  simp only at hp hr
  unfold processLine
  by_cases hstart : jsStartsWith l "@" = true
  · simp only [hstart, if_true]
    by_cases hkey : (lineKeyValue l).1 = "param"
    · have hkeyOf : lineKeyOf l = some "param" := by
        unfold lineKeyOf; rw [if_pos hstart, hkey]
      obtain ⟨p, hparse⟩ := Option.isSome_iff_exists.mp (hgood.1 hkeyOf)
      simp only [hkey, if_pos rfl, hparse]
      cases hg : metaGet m "param" with
      | none =>
        refine ⟨(desc, metaSet m "param" (.arr [.par p])), ?_, ?_, ?_⟩
        · simp [metaPush, hg, bind, Except.bind]
        · intro v hv
          rw [metaGet_metaSet_self] at hv
          cases hv
          exact ⟨[.par p], rfl, by simp⟩
        · refine returnsWF_of_eq ?_ hr
          exact metaGet_metaSet_ne m _ (by decide)
      | some tv =>
        cases tv with
        | scalar s =>
          obtain ⟨items, heq, _⟩ := hp _ hg
          cases heq
        | arr items =>
          refine ⟨(desc, metaSet m "param" (.arr (items ++ [.par p]))), ?_, ?_, ?_⟩
          · simp [metaPush, hg, bind, Except.bind]
          · intro v hv
            rw [metaGet_metaSet_self] at hv
            cases hv
            obtain ⟨items0, heq, hall⟩ := hp _ hg
            cases heq
            refine ⟨items ++ [.par p], rfl, ?_⟩
            intro it hit
            rcases List.mem_append.mp hit with h1 | h1
            · exact hall it h1
            · simp at h1; exact ⟨p, h1⟩
          · refine returnsWF_of_eq ?_ hr
            exact metaGet_metaSet_ne m _ (by decide)
    · by_cases hkey2 : (lineKeyValue l).1 = "returns"
      · have hkeyOf : lineKeyOf l = some "returns" := by
          unfold lineKeyOf; rw [if_pos hstart, hkey2]
        obtain ⟨r, hparse⟩ := Option.isSome_iff_exists.mp (hgood.2 hkeyOf)
        simp only [hkey, hkey2, if_neg, if_pos rfl, hparse]
        cases hg : metaGet m "returns" with
        | none =>
          refine ⟨(desc, metaSet m "returns" (.arr [.ret r])), ?_, ?_, ?_⟩
          · simp [metaPush, hg, bind, Except.bind]
          · refine paramWF_of_eq ?_ hp
            exact metaGet_metaSet_ne m _ (by decide)
          · intro v hv
            rw [metaGet_metaSet_self] at hv
            cases hv
            exact ⟨[.ret r], rfl, by simp⟩
        | some tv =>
          cases tv with
          | scalar s =>
            obtain ⟨items, heq, _⟩ := hr _ hg
            cases heq
          | arr items =>
            refine ⟨(desc, metaSet m "returns" (.arr (items ++ [.ret r]))), ?_, ?_, ?_⟩
            · simp [metaPush, hg, bind, Except.bind]
            · refine paramWF_of_eq ?_ hp
              exact metaGet_metaSet_ne m _ (by decide)
            · intro v hv
              rw [metaGet_metaSet_self] at hv
              cases hv
              obtain ⟨items0, heq, hall⟩ := hr _ hg
              cases heq
              refine ⟨items ++ [.ret r], rfl, ?_⟩
              intro it hit
              rcases List.mem_append.mp hit with h1 | h1
              · exact hall it h1
              · simp at h1; exact ⟨r, h1⟩
      · simp only [hkey, hkey2, if_neg]
        refine ⟨(desc, genericAdd m (lineKeyValue l).1 (lineKeyValue l).2), by simp, ?_, ?_⟩
        · have hne : ("param" : String) ≠ (lineKeyValue l).1 := fun hh => hkey hh.symm
          obtain ⟨x, hx⟩ := genericAdd_eq_metaSet m (lineKeyValue l).1 (lineKeyValue l).2
          refine paramWF_of_eq ?_ hp
          rw [hx]
          exact metaGet_metaSet_ne m x hne
        · have hne : ("returns" : String) ≠ (lineKeyValue l).1 := fun hh => hkey2 hh.symm
          obtain ⟨x, hx⟩ := genericAdd_eq_metaSet m (lineKeyValue l).1 (lineKeyValue l).2
          refine returnsWF_of_eq ?_ hr
          rw [hx]
          exact metaGet_metaSet_ne m x hne
  · simp only [Bool.not_eq_true] at hstart
    simp only [hstart]
    exact ⟨(desc ++ [l], m), by simp, hp, hr⟩

end Docgen
namespace Docgen

theorem processLines_invariant :
    ∀ (lines : List String) (st : List String × Metadata),
      goodTagLines lines → paramWellFormed st.2 → returnsWellFormed st.2 →
      ∃ st', List.foldlM processLine st lines = .ok st' ∧
        paramWellFormed st'.2 ∧ returnsWellFormed st'.2 := by
  intro lines
  induction lines with
  | nil => intro st _ hp hr; exact ⟨st, rfl, hp, hr⟩
  | cons l rest ih =>
    intro st hgood hp hr
    obtain ⟨st1, hst1, hp1, hr1⟩ :=
      processLine_invariant st l (hgood l (List.mem_cons_self l rest)) hp hr
    obtain ⟨st2, hst2, hp2, hr2⟩ := ih st1
      (fun x hx => hgood x (List.mem_cons_of_mem l hx)) hp1 hr1
    refine ⟨st2, ?_, hp2, hr2⟩
    simp only [List.foldlM_cons, hst1, bind, Except.bind]
    exact hst2

theorem metaGet_singleton_same (k : String) (x : TagValue) :
    metaGet [(k, x)] k = some x := by
  simp [metaGet]

theorem metaSet_singleton_same (k : String) (x y : TagValue) :
    metaSet [(k, x)] k y = [(k, y)] := by
  simp [metaSet]

theorem foldGenericArr :
    ∀ (rest : List String) (d : List String) (k : String) (items : List Item),
      k ≠ "param" → k ≠ "returns" →
      (∀ l ∈ rest, jsStartsWith l "@" = true ∧ (lineKeyValue l).1 = k) →
      List.foldlM processLine (d, [(k, TagValue.arr items)]) rest =
        .ok (d, [(k, TagValue.arr
          (items ++ rest.map (fun l => Item.str (lineKeyValue l).2)))]) := by
  intro rest
  induction rest with
  | nil =>
    intro d k items _ _ _
    simp only [List.foldlM_nil, List.map_nil, List.append_nil]
    rfl
  | cons l rest2 ih =>
    intro d k items hk1 hk2 hform
    obtain ⟨hstart, hkey⟩ := hform l (List.mem_cons_self l rest2)
    have hstep : processLine (d, [(k, TagValue.arr items)]) l =
        .ok (d, [(k, TagValue.arr (items ++ [.str (lineKeyValue l).2]))]) := by
      unfold processLine
      simp only [hstart, if_true, hkey]
      rw [if_neg hk1, if_neg hk2]
      unfold genericAdd
      rw [metaGet_singleton_same]
      simp [metaSet_singleton_same]
    simp only [List.foldlM_cons, hstep, bind, Except.bind]
    rw [ih d k (items ++ [Item.str (lineKeyValue l).2]) hk1 hk2
      (fun x hx => hform x (List.mem_cons_of_mem l hx))]
    simp

/-- C7: (amended) provided every `@param`/`@returns` line of the block
satisfies its tag grammar, the parse succeeds and `metadata.param` and
`metadata.returns`, whenever present, are arrays of structured
Param/Return records, never scalars; and a repeated generic tag whose
first value is non-empty accumulates in order — one line yields a scalar,
a second converts it to a two-element array, and each later line
appends. -/
theorem claim_C7_amended :
    (∀ lines, goodTagLines lines →
      ∃ d m, processLines lines = .ok (d, m) ∧
        paramWellFormed m ∧ returnsWellFormed m) ∧
    (∀ (k : String) (lines : List String), k ≠ "param" → k ≠ "returns" →
      lines ≠ [] →
      (∀ l ∈ lines, jsStartsWith l "@" = true ∧ (lineKeyValue l).1 = k) →
      (lineKeyValue (lines.headD "")).2 ≠ "" →
      processLines lines = .ok ("",
        [(k, match lines.map (fun l => (lineKeyValue l).2) with
             | [v] => TagValue.scalar v
             | vs => TagValue.arr (vs.map Item.str))])) := by
  constructor
  · intro lines hgood
    obtain ⟨⟨d0, m0⟩, hfold, hp, hr⟩ :=
      processLines_invariant lines ([], []) hgood paramWF_nil returnsWF_nil
    refine ⟨String.intercalate " " d0, m0, ?_, hp, hr⟩
    unfold processLines
    simp only [hfold, bind, Except.bind]
  · intro k lines hk1 hk2 hne hform hfirst
    match lines, hne with
    | l0 :: rest, _ =>
      obtain ⟨hstart0, hkey0⟩ := hform l0 (List.mem_cons_self l0 rest)
      have hv0' : (lineKeyValue l0).2 ≠ "" := by simpa using hfirst
      have hstep0 : processLine ([], []) l0 =
          .ok ([], [(k, TagValue.scalar (lineKeyValue l0).2)]) := by
        unfold processLine
        simp only [hstart0, if_true, hkey0]
        rw [if_neg hk1, if_neg hk2]
        unfold genericAdd
        simp [metaGet, metaSet]
      cases rest with
      | nil =>
        unfold processLines
        simp only [List.foldlM_cons, hstep0, bind, Except.bind, List.foldlM_nil,
          List.map_cons, List.map_nil]
        rfl
      | cons l1 rest2 =>
        obtain ⟨hstart1, hkey1⟩ := hform l1 (List.mem_cons_of_mem l0 (List.mem_cons_self l1 rest2))
        have hstep1 : processLine ([], [(k, TagValue.scalar (lineKeyValue l0).2)]) l1 =
            .ok ([], [(k, TagValue.arr [.str (lineKeyValue l0).2, .str (lineKeyValue l1).2])]) := by
          unfold processLine
          simp only [hstart1, if_true, hkey1]
          rw [if_neg hk1, if_neg hk2]
          unfold genericAdd
          rw [metaGet_singleton_same]
          simp [hv0', metaSet_singleton_same]
        unfold processLines
        simp only [List.foldlM_cons, hstep0, hstep1, bind, Except.bind]
        rw [foldGenericArr rest2 [] k [.str (lineKeyValue l0).2, .str (lineKeyValue l1).2] hk1 hk2
          (fun x hx => hform x (List.mem_cons_of_mem l0 (List.mem_cons_of_mem l1 hx)))]
        simp [List.map_map, String.intercalate]

/-- C7 counterexample: a single malformed `@param` line makes
`metadata.param` a scalar string, contradicting the claim that `param`,
whenever present, is always a sequence of structured records. -/
theorem claim_C7_counterexample :
    processLines ["@param foo"] = .ok ("", [("param", .scalar "foo")]) := rfl

/-- C7 witness: a grammar-clean block, and a three-fold repeated generic
tag accumulating into a three-element array. -/
theorem claim_C7_witness :
    (∃ d m, processLines ["@param {string} id.path.required - User ID",
        "@returns {object} 200 - OK"] = .ok (d, m) ∧
      paramWellFormed m ∧ returnsWellFormed m) ∧
    processLines ["@tags a", "@tags b", "@tags c"] =
      .ok ("", [("tags", .arr [.str "a", .str "b", .str "c"])]) := by
  constructor
  · exact claim_C7_amended.1 _ (by unfold goodTagLines; decide)
  · have h := claim_C7_amended.2 "tags" ["@tags a", "@tags b", "@tags c"]
      (by decide) (by decide) (by decide) (by decide) (by decide)
    exact h

theorem lookupFind_none_keys {l : List (String × Param)} {k : String}
    (hf : lookupFind l k = none) : ∀ kv ∈ l, ¬(kv.1 = k) := by
  have hf0 : List.find? (fun kv => kv.1 = k) l = none := by
    unfold lookupFind at hf
    cases hff : List.find? (fun kv => kv.1 = k) l with
    | none => rfl
    | some x => rw [hff] at hf; simp at hf
  intro kv hm
  have := List.find?_eq_none.mp hf0 kv hm
  simpa using this

theorem mergeStep_snd (acc : List Param) (l : List (String × Param)) (e : Param) :
    (mergeStep (acc, l) e).2 = l.filter (fun kv => !(kv.1 = e.name)) := by
  cases hf : lookupFind l e.name with
  | some meta => simp [mergeStep, hf, lookupDelete]
  | none =>
    have hall := lookupFind_none_keys hf
    simp only [mergeStep, hf]
    refine (List.filter_eq_self.mpr ?_).symm
    intro kv hm
    simpa using hall kv hm

theorem mergeStep_fst (acc : List Param) (l : List (String × Param)) (e : Param) :
    ∃ b, (mergeStep (acc, l) e).1 = acc ++ [b] ∧ b.name = e.name ∧
      (e.«in» = "path" → b.«in» = "path") := by
  cases hf : lookupFind l e.name with
  | some meta =>
    refine ⟨{ name := e.name,
              type := some (jsOrStrD e.type (jsOrStrD meta.type "string")),
              «in» := "path", required := true,
              description := some (jsOrStrD meta.description (e.name ++ " parameter")),
              format := match e.format with
                | some f => if f = "" then none else some f
                | none => none }, ?_, rfl, fun _ => rfl⟩
    simp [mergeStep, hf]
  | none =>
    refine ⟨{ e with description := some (e.name ++ " parameter") }, ?_, rfl, fun h => h⟩
    simp [mergeStep, hf]

theorem mergeFold_snd :
    ∀ (es : List Param) (acc : List Param) (l : List (String × Param)),
      (es.foldl mergeStep (acc, l)).2 =
        l.filter (fun kv => es.all (fun e => !(kv.1 = e.name))) := by
  intro es
  induction es with
  | nil => intro acc l; simp
  | cons e es' ih =>
    intro acc l
    rw [List.foldl_cons]
    have hms : mergeStep (acc, l) e =
        ((mergeStep (acc, l) e).1, l.filter (fun kv => !(kv.1 = e.name))) := by
      rw [← mergeStep_snd acc l e]
    rw [hms, ih]
    rw [List.filter_filter]
    congr 1
    funext kv
    simp [List.all_cons, Bool.and_comm]

theorem mergeFold_fst :
    ∀ (es : List Param) (acc : List Param) (l : List (String × Param)),
      ∃ A, (es.foldl mergeStep (acc, l)).1 = acc ++ A ∧
        A.map (fun a => a.name) = es.map (fun e => e.name) ∧
        ((∀ e ∈ es, e.«in» = "path") → ∀ a ∈ A, a.«in» = "path") := by
  intro es
  induction es with
  | nil => intro acc l; exact ⟨[], by simp, rfl, fun _ a ha => absurd ha (List.not_mem_nil a)⟩
  | cons e es' ih =>
    intro acc l
    obtain ⟨b, hb, hbn, hbi⟩ := mergeStep_fst acc l e
    obtain ⟨A', hA', hAn, hAi⟩ := ih (mergeStep (acc, l) e).1 (mergeStep (acc, l) e).2
    refine ⟨b :: A', ?_, ?_, ?_⟩
    · rw [List.foldl_cons]
      have : mergeStep (acc, l) e = ((mergeStep (acc, l) e).1, (mergeStep (acc, l) e).2) := rfl
      rw [this] at hA' ⊢
      rw [hA', hb]
      simp
    · simp [hbn, hAn]
    · intro hall a ha
      rcases List.mem_cons.mp ha with h1 | h1
      · subst h1; exact hbi (hall e (List.mem_cons_self e es'))
      · exact hAi (fun x hx => hall x (List.mem_cons_of_mem e hx)) a h1


theorem buildStep_inv :
    ∀ (docs : List Item) (m : List (String × Param)),
      (∀ kv ∈ m, kv.2.name = kv.1 ∧ kv.2.«in» = "path") →
      ∀ kv ∈ docs.foldl
        (fun m it =>
          match it with
          | .par p =>
            if p.«in» = "path" then
              if m.any (fun kv => kv.1 = p.name) then
                m.map (fun kv => if kv.1 = p.name then (p.name, p) else kv)
              else m ++ [(p.name, p)]
            else m
          | _ => m) m,
        kv.2.name = kv.1 ∧ kv.2.«in» = "path" := by
  intro docs
  induction docs with
  | nil => intro m hm kv hkv; exact hm kv hkv
  | cons it docs' ih =>
    intro m hm
    rw [List.foldl_cons]
    apply ih
    intro kv hkv
    cases it with
    | par p =>
      by_cases hin : p.«in» = "path"
      · simp only [hin, if_pos rfl] at hkv
        by_cases hany : (m.any (fun kv => kv.1 = p.name)) = true
        · simp only [hany, if_true] at hkv
          obtain ⟨kv0, hkv0, heq⟩ := List.mem_map.mp hkv
          by_cases h0 : kv0.1 = p.name
          · rw [if_pos h0] at heq
            subst heq
            exact ⟨rfl, hin⟩
          · rw [if_neg h0] at heq
            subst heq
            exact hm kv0 hkv0
        · simp only [hany, if_false] at hkv
          rcases List.mem_append.mp hkv with h1 | h1
          · exact hm kv h1
          · simp at h1
            subst h1
            exact ⟨rfl, hin⟩
      · simp only [hin, if_neg hin] at hkv
        exact hm kv hkv
    | str s => exact hm kv hkv
    | ret r => exact hm kv hkv

theorem buildLookup_inv (docs : List Item) :
    ∀ kv ∈ buildLookup docs, kv.2.name = kv.1 ∧ kv.2.«in» = "path" := by
  unfold buildLookup
  exact buildStep_inv docs [] (fun kv hkv => absurd hkv (List.not_mem_nil kv))

theorem buildStep_keys_nodup :
    ∀ (docs : List Item) (m : List (String × Param)),
      (m.map (fun kv => kv.1)).Nodup →
      ((docs.foldl
        (fun m it =>
          match it with
          | .par p =>
            if p.«in» = "path" then
              if m.any (fun kv => kv.1 = p.name) then
                m.map (fun kv => if kv.1 = p.name then (p.name, p) else kv)
              else m ++ [(p.name, p)]
            else m
          | _ => m) m).map (fun kv => kv.1)).Nodup := by
  intro docs
  induction docs with
  | nil => intro m hm; exact hm
  | cons it docs' ih =>
    intro m hm
    rw [List.foldl_cons]
    apply ih
    cases it with
    | par p =>
      by_cases hin : p.«in» = "path"
      · by_cases hany : (m.any (fun kv => kv.1 = p.name)) = true
        · simp only [hin, if_pos rfl, hany, if_true]
          have hkeys : (m.map (fun kv => if kv.1 = p.name then (p.name, p) else kv)).map
              (fun kv => kv.1) = m.map (fun kv => kv.1) := by
            rw [List.map_map]
            apply List.map_congr_left
            intro kv _
            by_cases h0 : kv.1 = p.name
            · simp [Function.comp, h0]
            · simp [Function.comp, h0]
          rw [hkeys]
          exact hm
        · have hnotin : p.name ∉ m.map (fun kv => kv.1) := by
            intro hmem
            obtain ⟨kv0, hkv0, heq⟩ := List.mem_map.mp hmem
            apply hany
            rw [List.any_eq_true]
            exact ⟨kv0, hkv0, by simp [heq]⟩
          simp [hin, hany, List.nodup_append, hm, hnotin]
      · simp only [hin, if_neg hin]
        exact hm
    | str s => exact hm
    | ret r => exact hm

theorem buildLookup_keys_nodup (docs : List Item) :
    ((buildLookup docs).map (fun kv => kv.1)).Nodup := by
  unfold buildLookup
  exact buildStep_keys_nodup docs [] (by simp)


theorem normalize_extracted_in (p : String) :
    ∀ e ∈ (normalizeExpressPath p).2, e.«in» = "path" := by
  unfold normalizeExpressPath
  intro e he
  simp only at he
  obtain ⟨n, _, heq⟩ := List.mem_map.mp he
  subst heq
  rfl

theorem mergePathParams_decomp (es : List Param) (docs : List Item) :
    ∃ A, mergePathParamsWithMetadata es docs =
      A ++ ((buildLookup docs).filter
        (fun kv => es.all (fun e => !(kv.1 = e.name)))).map (fun kv => kv.2) ∧
      A.map (fun a => a.name) = es.map (fun e => e.name) ∧
      ((∀ e ∈ es, e.«in» = "path") → ∀ a ∈ A, a.«in» = "path") := by
  obtain ⟨A, hA, hAn, hAi⟩ := mergeFold_fst es [] (buildLookup docs)
  have hsnd := mergeFold_snd es [] (buildLookup docs)
  refine ⟨A, ?_, hAn, hAi⟩
  unfold mergePathParamsWithMetadata
  have hfold : es.foldl mergeStep ([], buildLookup docs) =
      ([] ++ A, (buildLookup docs).filter
        (fun kv => es.all (fun e => !(kv.1 = e.name)))) := by
    refine Prod.ext ?_ ?_
    · exact hA
    · exact hsnd
  dsimp only
  rw [hfold]
  simp

theorem pathParamNames_append (xs ys : List Item) :
    pathParamNames (xs ++ ys) = pathParamNames xs ++ pathParamNames ys := by
  unfold pathParamNames
  rw [List.filter_append, List.filterMap_append]

theorem pathParamNames_pars (l : List Param) (h : ∀ q ∈ l, q.«in» = "path") :
    pathParamNames (l.map Item.par) = l.map (fun q => q.name) := by
  unfold pathParamNames
  rw [List.filter_map]
  have hfl : l.filter ((fun it => itemIn it = some "path") ∘ Item.par) = l := by
    apply List.filter_eq_self.mpr
    intro q hq
    simp [Function.comp, itemIn, h q hq]
  rw [hfl]
  rw [List.filterMap_map]
  have : (itemName ∘ Item.par) = (fun q : Param => some q.name) := by
    funext q; rfl
  rw [this]
  exact congrFun (List.filterMap_eq_map (fun q : Param => q.name)) l

theorem pathParamNames_nonPath (docs : List Item) :
    pathParamNames (docs.filter (fun it => itemIn it ≠ some "path")) = [] := by
  unfold pathParamNames
  rw [List.filter_filter]
  rw [List.filter_eq_nil_iff.mpr ?keep]
  case keep =>
    intro it hit
    by_cases h : itemIn it = some "path" <;> simp [h]
  rfl

/-- C3: (amended) provided the structural params extracted from the path
literal have pairwise distinct names, the path-location parameter names
of the final merged list are pairwise distinct. -/
theorem claim_C3_amended (p : String) (docs : List Item)
    (hnodup : (((normalizeExpressPath p).2).map (fun e => e.name)).Nodup) :
    (pathParamNames (allParamsOf p docs)).Nodup := by
  unfold allParamsOf
  dsimp only
  obtain ⟨A, hm, hAn, hAi⟩ := mergePathParams_decomp (normalizeExpressPath p).2 docs
  rw [hm]
  rw [List.map_append, pathParamNames_append, pathParamNames_append,
    pathParamNames_nonPath, List.append_nil]
  have hAin : ∀ a ∈ A, a.«in» = "path" := hAi (normalize_extracted_in p)
  rw [pathParamNames_pars A hAin]
  set lo := ((buildLookup docs).filter
    (fun kv => ((normalizeExpressPath p).2).all (fun e => !(kv.1 = e.name)))) with hlo
  have hloin : ∀ q ∈ lo.map (fun kv => kv.2), q.«in» = "path" := by
    intro q hq
    obtain ⟨kv, hkv, heq⟩ := List.mem_map.mp hq
    subst heq
    exact (buildLookup_inv docs kv (List.mem_of_mem_filter hkv)).2
  rw [pathParamNames_pars _ hloin]
  have hkeys : (lo.map (fun kv => kv.2)).map (fun q => q.name) = lo.map (fun kv => kv.1) := by
    rw [List.map_map]
    apply List.map_congr_left
    intro kv hkv
    exact (buildLookup_inv docs kv (List.mem_of_mem_filter hkv)).1
  rw [hkeys, hAn]
  rw [List.nodup_append]
  refine ⟨hnodup, ?_, ?_⟩
  · have hsub : List.Sublist (lo.map (fun kv : String × Param => kv.1))
        ((buildLookup docs).map (fun kv : String × Param => kv.1)) := by
      rw [hlo]
      exact List.Sublist.map (fun kv : String × Param => kv.1)
        (List.filter_sublist (buildLookup docs))
    exact List.Nodup.sublist hsub (buildLookup_keys_nodup docs)
  · intro x hx hy
    obtain ⟨kv, hkv, heq⟩ := List.mem_map.mp hy
    subst heq
    have hpred := List.of_mem_filter hkv
    rw [List.all_eq_true] at hpred
    obtain ⟨e, he, heq2⟩ := List.mem_map.mp hx
    have := hpred e he
    simp at this
    exact this heq2.symm


/-- C3 counterexample: the path literal `/:id/:id` yields two structural
params named `id`, and the final merged list keeps both, so the
path-location names of the Route's parameter list are not pairwise
distinct. -/
theorem claim_C3_counterexample :
    ¬ (pathParamNames (allParamsOf "/:id/:id" [])).Nodup := by decide

/-- C3 witness: a path literal with distinct marker names merged with a
documented path param yields pairwise distinct path-location names. -/
theorem claim_C3_witness :
    (pathParamNames (allParamsOf "/users/:id" [Item.par c2Documented])).Nodup :=
  claim_C3_amended "/users/:id" [Item.par c2Documented] (by decide)

theorem pathParamNames_cons_par_path (q : Param) (rest : List Item)
    (h : q.«in» = "path") :
    pathParamNames (.par q :: rest) = q.name :: pathParamNames rest := by
  simp [pathParamNames, itemIn, itemName, h]

theorem pathParamNames_cons_other (it : Item) (rest : List Item)
    (h : itemIn it ≠ some "path") :
    pathParamNames (it :: rest) = pathParamNames rest := by
  simp [pathParamNames, h]

theorem buildFold_of_nodup :
    ∀ (docs : List Item) (m : List (String × Param)),
      ((m.map (fun kv => kv.1)) ++ pathParamNames docs).Nodup →
      docs.foldl
        (fun m it =>
          match it with
          | .par p =>
            if p.«in» = "path" then
              if m.any (fun kv => kv.1 = p.name) then
                m.map (fun kv => if kv.1 = p.name then (p.name, p) else kv)
              else m ++ [(p.name, p)]
            else m
          | _ => m) m = m ++ docs.filterMap pathEntryOf := by
  intro docs
  induction docs with
  | nil => intro m _; simp
  | cons it docs' ih =>
    intro m hnd
    rw [List.foldl_cons]
    cases it with
    | par q =>
      by_cases hin : q.«in» = "path"
      · rw [pathParamNames_cons_par_path q docs' hin] at hnd
        have hqout : q.name ∉ m.map (fun kv => kv.1) := by
          rw [List.nodup_append] at hnd
          intro hmem
          exact hnd.2.2 hmem (List.mem_cons_self _ _)
        have hany : (m.any (fun kv => kv.1 = q.name)) = false := by
          rw [List.any_eq_false]
          intro kv hkv
          simp only [decide_eq_true_eq]
          intro hh
          exact hqout (List.mem_map.mpr ⟨kv, hkv, hh⟩)
        have hstep : (match Item.par q with
            | Item.par p =>
              if p.«in» = "path" then
                if m.any (fun kv => kv.1 = p.name) then
                  m.map (fun kv => if kv.1 = p.name then (p.name, p) else kv)
                else m ++ [(p.name, p)]
              else m
            | _ => m) = m ++ [(q.name, q)] := by
          simp [hin, hany]
        rw [hstep]
        rw [ih (m ++ [(q.name, q)]) (by
          simpa [List.append_assoc] using hnd)]
        simp [pathEntryOf, hin]
      · have hstep : (match Item.par q with
            | Item.par p =>
              if p.«in» = "path" then
                if m.any (fun kv => kv.1 = p.name) then
                  m.map (fun kv => if kv.1 = p.name then (p.name, p) else kv)
                else m ++ [(p.name, p)]
              else m
            | _ => m) = m := by
          simp [hin]
        rw [hstep]
        rw [pathParamNames_cons_other (.par q) docs' (by simp [itemIn, hin])] at hnd
        rw [ih m hnd]
        simp [pathEntryOf, hin]
    | str s =>
      rw [pathParamNames_cons_other (.str s) docs' (by simp [itemIn])] at hnd
      rw [ih m hnd]
      simp [pathEntryOf]
    | ret r =>
      rw [pathParamNames_cons_other (.ret r) docs' (by simp [itemIn])] at hnd
      rw [ih m hnd]
      simp [pathEntryOf]

theorem buildLookup_of_nodup (docs : List Item)
    (hnd : (pathParamNames docs).Nodup) :
    buildLookup docs = docs.filterMap pathEntryOf := by
  unfold buildLookup
  have := buildFold_of_nodup docs [] (by simpa using hnd)
  simpa using this

theorem leftover_seg :
    ∀ (docs : List Item) (esNames : List String),
      ((docs.filterMap pathEntryOf).filter
        (fun kv => esNames.all (fun n => !(kv.1 = n)))).map (fun kv => Item.par kv.2) =
      docs.filter (leftoverPred esNames) := by
  intro docs esNames
  induction docs with
  | nil => simp
  | cons it docs' ih =>
    cases it with
    | par q =>
      by_cases hin : q.«in» = "path"
      · rw [List.filterMap_cons]
        have hpe : pathEntryOf (.par q) = some (q.name, q) := by simp [pathEntryOf, hin]
        rw [hpe]
        by_cases hkeep : (esNames.all (fun n => !(q.name = n))) = true
        · rw [List.filter_cons_of_pos (by simpa using hkeep)]
          rw [List.map_cons, ih]
          have hlp : leftoverPred esNames (.par q) = true := by
            simp [leftoverPred, itemIn, itemName, hin]
            simpa using hkeep
          rw [List.filter_cons_of_pos hlp]
        · rw [List.filter_cons_of_neg (by simpa using hkeep)]
          rw [ih]
          have hlp : leftoverPred esNames (.par q) = false := by
            simp [leftoverPred, itemIn, itemName, hin]
            simpa using hkeep
          rw [List.filter_cons_of_neg (by simp [hlp])]
      · rw [List.filterMap_cons]
        have hpe : pathEntryOf (.par q) = none := by simp [pathEntryOf, hin]
        rw [hpe, ih]
        have hlp : leftoverPred esNames (.par q) = false := by
          simp [leftoverPred, itemIn, hin]
        rw [List.filter_cons_of_neg (by simp [hlp])]
    | str s =>
      rw [List.filterMap_cons]
      have hpe : pathEntryOf (.str s) = none := rfl
      rw [hpe, ih]
      rw [List.filter_cons_of_neg (by simp [leftoverPred, itemIn])]
    | ret r =>
      rw [List.filterMap_cons]
      have hpe : pathEntryOf (.ret r) = none := rfl
      rw [hpe, ih]
      rw [List.filter_cons_of_neg (by simp [leftoverPred, itemIn])]


/-- C8: (amended) provided the documented path-param names are pairwise
distinct, the final ordered parameter list is: one merged path param per
structural param, in structural order (same names), then the documented
path params whose names never appear in the path literal, unchanged and
in their original relative order, then the non-path documented params
untouched. -/
theorem claim_C8_amended (p : String) (docs : List Item)
    (hnodup : (pathParamNames docs).Nodup) :
    ∃ A : List Param,
      A.length = ((normalizeExpressPath p).2).length ∧
      A.map (fun a => a.name) = ((normalizeExpressPath p).2).map (fun e => e.name) ∧
      allParamsOf p docs =
        A.map Item.par
        ++ docs.filter (leftoverPred (((normalizeExpressPath p).2).map (fun e => e.name)))
        ++ docs.filter (fun it => itemIn it ≠ some "path") := by
  obtain ⟨A, hm, hAn, hAi⟩ := mergePathParams_decomp (normalizeExpressPath p).2 docs
  refine ⟨A, ?_, hAn, ?_⟩
  · have := congrArg List.length hAn
    simpa using this
  · unfold allParamsOf
    dsimp only
    rw [hm, List.map_append]
    congr 1
    congr 1
    rw [List.map_map, buildLookup_of_nodup docs hnodup]
    have hpred : (fun kv : String × Param =>
        ((normalizeExpressPath p).2).all (fun e => !(kv.1 = e.name))) =
        (fun kv : String × Param =>
          (((normalizeExpressPath p).2).map (fun e => e.name)).all
            (fun n => !(kv.1 = n))) := by
      funext kv
      induction (normalizeExpressPath p).2 with
      | nil => rfl
      | cons e rest ih => simp [List.all_cons, ih]
    rw [hpred]
    exact leftover_seg docs (((normalizeExpressPath p).2).map (fun e => e.name))

/-- C8 counterexample: two documented path params sharing a name — the
later one overwrites the earlier in the lookup, so the earlier param,
whose name never appears in the path literal, is dropped from the final
list instead of being preserved unchanged. -/
theorem claim_C8_counterexample :
    allParamsOf "/x" [.par c8DocFirst, .par c8DocSecond] = [.par c8DocSecond] ∧
    Item.par c8DocFirst ∉ allParamsOf "/x" [.par c8DocFirst, .par c8DocSecond] := by
  constructor
  · rfl
  · decide

/-- C8 witness: the three-segment decomposition at a concrete path and
documented-param list. -/
theorem claim_C8_witness :
    ∃ A : List Param,
      A.length = ((normalizeExpressPath "/users/:id").2).length ∧
      A.map (fun a => a.name) =
        ((normalizeExpressPath "/users/:id").2).map (fun e => e.name) ∧
      allParamsOf "/users/:id" [.par c8DocFirst] =
        A.map Item.par
        ++ ([.par c8DocFirst] : List Item).filter
          (leftoverPred (((normalizeExpressPath "/users/:id").2).map (fun e => e.name)))
        ++ ([.par c8DocFirst] : List Item).filter (fun it => itemIn it ≠ some "path") :=
  claim_C8_amended "/users/:id" [.par c8DocFirst] (by decide)

theorem normAux_cons_step (f : Nat) (c : Char) (cs : List Char)
    (h : c = ':' → (match cs with
      | d :: _ => isIdentStart d = false
      | [] => True)) :
    normAux (f + 1) (c :: cs) = (c :: (normAux f cs).1, (normAux f cs).2) := by
  by_cases hc : c = ':'
  · subst hc
    cases cs with
    | nil => simp [normAux]
    | cons d rest =>
      have hd := h rfl
      simp only at hd
      simp [normAux, hd]
  · simp [normAux, hc]

theorem normAux_marker (f : Nat) (d : Char) (rest : List Char)
    (hd : isIdentStart d = true) :
    normAux (f + 1) (':' :: d :: rest) =
      ('{' :: ((d :: rest.takeWhile isIdentCont) ++
        '}' :: (normAux f (rest.dropWhile isIdentCont)).1),
       String.mk (d :: rest.takeWhile isIdentCont) ::
        (normAux f (rest.dropWhile isIdentCont)).2) := by
  simp [normAux, hd]


theorem spanAll (ds : List Char) (rest2 : List Char)
    (hall : ds.all isIdentCont = true)
    (hhead : match rest2 with
      | c :: _ => isIdentCont c = false
      | [] => True) :
    (ds ++ rest2).takeWhile isIdentCont = ds ∧
    (ds ++ rest2).dropWhile isIdentCont = rest2 := by
  induction ds with
  | nil =>
    cases rest2 with
    | nil => exact ⟨rfl, rfl⟩
    | cons c r =>
      simp only at hhead
      constructor
      · simp [List.takeWhile_cons, hhead]
      · simp [List.dropWhile_cons, hhead]
  | cons a ds' ih =>
    rw [List.all_cons] at hall
    rw [Bool.and_eq_true] at hall
    obtain ⟨ha, hall'⟩ := hall
    obtain ⟨ht, hd⟩ := ih hall'
    constructor
    · simp [List.takeWhile_cons, ha, ht]
    · simp [List.dropWhile_cons, ha, hd]

theorem wfSegs_tail {sg : PathSeg} {rest : List PathSeg}
    (h : wfSegs (sg :: rest) = true) : wfSegs rest = true := by
  unfold wfSegs at h ⊢
  rw [Bool.and_eq_true] at h
  obtain ⟨hall, hadj⟩ := h
  rw [List.all_cons, Bool.and_eq_true] at hall
  rw [Bool.and_eq_true]
  refine ⟨hall.2, ?_⟩
  cases sg with
  | lit c1 =>
    cases rest with
    | nil => rfl
    | cons s2 r2 =>
      cases s2 with
      | lit c2 =>
        rw [show wfAdj (PathSeg.lit c1 :: PathSeg.lit c2 :: r2) =
          (!(c1 = ':' && isIdentStart c2) && wfAdj (PathSeg.lit c2 :: r2)) from rfl,
          Bool.and_eq_true] at hadj
        exact hadj.2
      | marker n => exact hadj
  | marker n =>
    cases rest with
    | nil => rfl
    | cons s2 r2 =>
      cases s2 with
      | lit c2 =>
        rw [show wfAdj (PathSeg.marker n :: PathSeg.lit c2 :: r2) =
          (!(isIdentCont c2) && wfAdj (PathSeg.lit c2 :: r2)) from rfl,
          Bool.and_eq_true] at hadj
        exact hadj.2
      | marker n2 => exact hadj


theorem normAux_render :
    ∀ (segs : List PathSeg) (fuel : Nat),
      wfSegs segs = true → (renderSegs segs).length ≤ fuel →
      normAux fuel (renderSegs segs) = (renderNormSegs segs, markerNames segs) := by
  intro segs
  induction segs with
  | nil => intro fuel _ _; cases fuel <;> rfl
  | cons sg rest ih =>
    intro fuel hwf hwlen
    have hwf' := wfSegs_tail hwf
    cases sg with
    | lit c =>
      have hlen1 : (renderSegs (PathSeg.lit c :: rest)).length =
          1 + (renderSegs rest).length := by simp [renderSegs, renderSeg]; omega
      cases fuel with
      | zero => rw [hlen1] at hwlen; omega
      | succ f =>
        have hcond : c = ':' → (match renderSegs rest with
            | d :: _ => isIdentStart d = false
            | [] => True) := by
          intro hc
          cases rest with
          | nil => simp [renderSegs]
          | cons s2 r2 =>
            cases s2 with
            | lit c2 =>
              subst hc
              unfold wfSegs at hwf
              rw [Bool.and_eq_true] at hwf
              have hadj := hwf.2
              rw [show wfAdj (PathSeg.lit ':' :: PathSeg.lit c2 :: r2) =
                (!(':' = ':' && isIdentStart c2) && wfAdj (PathSeg.lit c2 :: r2)) from rfl,
                Bool.and_eq_true] at hadj
              have h2 := hadj.1
              simp at h2
              simp [renderSegs, renderSeg, h2]
            | marker m =>
              simp [renderSegs, renderSeg]
              decide
        have hstep := normAux_cons_step f c (renderSegs rest) hcond
        rw [show renderSegs (PathSeg.lit c :: rest) = c :: renderSegs rest from
          by simp [renderSegs, renderSeg]]
        rw [hstep]
        rw [ih f hwf' (by rw [hlen1] at hwlen; omega)]
        simp [renderNormSegs, renderNormSeg, markerNames]
    | marker n =>
      have hmk : wfMarker (PathSeg.marker n) = true := by
        unfold wfSegs at hwf
        rw [Bool.and_eq_true] at hwf
        have h1 := hwf.1
        rw [List.all_cons, Bool.and_eq_true] at h1
        exact h1.1
      cases n with
      | nil => simp [wfMarker] at hmk
      | cons d ds =>
        rw [show wfMarker (PathSeg.marker (d :: ds)) =
          (isIdentStart d && ds.all isIdentCont) from rfl, Bool.and_eq_true] at hmk
        obtain ⟨hd, hds⟩ := hmk
        have hrender : renderSegs (PathSeg.marker (d :: ds) :: rest) =
            ':' :: d :: (ds ++ renderSegs rest) := by simp [renderSegs, renderSeg]
        cases fuel with
        | zero => rw [hrender] at hwlen; simp at hwlen
        | succ f =>
          have hhead : (match renderSegs rest with
              | c :: _ => isIdentCont c = false
              | [] => True) := by
            cases rest with
            | nil => simp [renderSegs]
            | cons s2 r2 =>
              cases s2 with
              | lit c2 =>
                unfold wfSegs at hwf
                rw [Bool.and_eq_true] at hwf
                have hadj := hwf.2
                rw [show wfAdj (PathSeg.marker (d :: ds) :: PathSeg.lit c2 :: r2) =
                  (!(isIdentCont c2) && wfAdj (PathSeg.lit c2 :: r2)) from rfl,
                  Bool.and_eq_true] at hadj
                have h2 := hadj.1
                simp at h2
                simp [renderSegs, renderSeg, h2]
              | marker m =>
                simp [renderSegs, renderSeg]
                decide
          obtain ⟨htk, hdr⟩ := spanAll ds (renderSegs rest) hds hhead
          have hlen2 : (renderSegs rest).length ≤ f := by
            rw [hrender] at hwlen
            simp only [List.length_cons, List.length_append] at hwlen
            omega
          rw [hrender]
          rw [normAux_marker f d (ds ++ renderSegs rest) hd]
          rw [htk, hdr]
          rw [ih f hwf' hlen2]
          simp [renderNormSegs, renderNormSeg, markerNames]


theorem normAux_noMarker :
    ∀ (cs : List Char) (fuel : Nat), noMarkerChars cs = true → cs.length ≤ fuel →
      normAux fuel cs = (cs, []) := by
  intro cs
  induction cs with
  | nil => intro fuel _ _; cases fuel <;> rfl
  | cons c cs' ih =>
    intro fuel hnm hlen
    cases fuel with
    | zero => simp at hlen
    | succ f =>
      have hnm' : noMarkerChars cs' = true := by
        by_cases hc : c = ':'
        · rw [hc] at hnm
          cases cs' with
          | nil => rfl
          | cons d r =>
            simp [noMarkerChars] at hnm ⊢
            exact hnm.2
        · simpa [noMarkerChars, hc] using hnm
      rw [normAux_cons_step f c cs' (by
        intro hc
        rw [hc] at hnm
        cases cs' with
        | nil => trivial
        | cons d r =>
          simp [noMarkerChars] at hnm
          simp [hnm.1])]
      rw [ih f hnm' (by simp at hlen; omega)]

/-- C4: for every canonical decomposition of a path literal into literal
characters and `:identifier` markers, normalization replaces each marker
in place by `{identifier}`, leaves every other character unchanged, and
returns one structural param per marker in first-occurrence order, each
with type `string`, location `path`, `required` true and no description;
a literal without markers is returned unchanged with an empty list. -/
theorem claim_C4_normalization :
    (∀ segs : List PathSeg, wfSegs segs = true →
      normalizeExpressPath (String.mk (renderSegs segs)) =
        (String.mk (renderNormSegs segs), (markerNames segs).map markerParam)) ∧
    (∀ s : String, noMarkerChars s.data = true →
      normalizeExpressPath s = (s, [])) := by
  constructor
  · intro segs hwf
    unfold normalizeExpressPath
    dsimp only
    rw [normAux_render segs (renderSegs segs).length hwf (le_refl _)]
    rfl
  · intro s hnm
    unfold normalizeExpressPath
    dsimp only
    rw [normAux_noMarker s.data s.data.length hnm (le_refl _)]
    rfl

/-- C4 witness: the literal `/u/:id`, and the marker-free `/plain`. -/
theorem claim_C4_witness :
    normalizeExpressPath (String.mk (renderSegs c4Segs)) =
      (String.mk (renderNormSegs c4Segs), (markerNames c4Segs).map markerParam) ∧
    normalizeExpressPath "/plain" = ("/plain", []) :=
  ⟨claim_C4_normalization.1 c4Segs (by decide),
   claim_C4_normalization.2 "/plain" (by decide)⟩

end Docgen
namespace Docgen

theorem mkChain_append (b : Node) (segs : List SegSpec) (sd : SegSpec) :
    mkChain b (segs ++ [sd]) =
      Node.call (.member (mkChain b segs) sd.method) sd.args sd.spanS sd.spanE
        sd.lead sd.trail := by
  unfold mkChain
  rw [List.foldl_append]
  rfl

theorem chainSegsAux_append :
    ∀ (segs : List SegSpec) (acc : Node) (sd : SegSpec),
      chainSegsAux acc (segs ++ [sd]) =
        chainSegsAux acc segs ++
          [ChainSeg.mk (jsToUpper sd.method)
            (Node.call (.member (mkChain acc segs) sd.method) sd.args sd.spanS
              sd.spanE sd.lead sd.trail) sd.args] := by
  intro segs
  induction segs with
  | nil => intro acc sd; rfl
  | cons x rest ih =>
    intro acc sd
    simp only [List.cons_append, chainSegsAux, List.append_eq]
    rw [ih]
    rfl

theorem chainSegsAux_methods :
    ∀ (segs : List SegSpec) (acc : Node),
      (chainSegsAux acc segs).map (fun cm => cm.method) =
        segs.map (fun sd => jsToUpper sd.method) := by
  intro segs
  induction segs with
  | nil => intro acc; rfl
  | cons x rest ih =>
    intro acc
    simp only [chainSegsAux, List.map_cons]
    rw [ih]

theorem chainSegsAux_mem :
    ∀ (segs : List SegSpec) (acc : Node) (cm : ChainSeg),
      cm ∈ chainSegsAux acc segs →
      ∃ sd ∈ segs, cm.method = jsToUpper sd.method ∧ cm.args = sd.args ∧
        cm.node.leading = sd.lead ∧ cm.node.trailing = sd.trail ∧
        cm.node.argsOf = sd.args := by
  intro segs
  induction segs with
  | nil => intro acc cm h; exact absurd h (List.not_mem_nil cm)
  | cons x rest ih =>
    intro acc cm h
    rcases List.mem_cons.mp h with h1 | h1
    · subst h1
      exact ⟨x, List.mem_cons_self x rest, rfl, rfl, rfl, rfl, rfl⟩
    · obtain ⟨sd, hsd, hrest⟩ := ih _ cm h1
      exact ⟨sd, List.mem_cons_of_mem x hsd, hrest⟩

theorem collectChain_mkChain (recv p : String) (bs be : Nat)
    (blead : Option (List String)) (hrecv : recv = "router" ∨ recv = "app") :
    ∀ (segs : List SegSpec),
      (∀ sd ∈ segs, httpMethods.contains sd.method = true) →
      collectChain (mkChain (mkBaseCall recv p bs be blead) segs) =
        (chainSegsAux (mkBaseCall recv p bs be blead) segs,
         some (some p, mkBaseCall recv p bs be blead)) := by
  intro segs
  induction segs using List.reverseRecOn with
  | nil =>
    intro _
    unfold mkChain mkBaseCall
    simp only [List.foldl_nil]
    rw [show collectChain
        (Node.call (.member (.ident recv none) "route") [.strLit p none] bs be blead none) =
      (if httpMethods.contains "route" = true then
        ([], (none : Option (Option String × Node)))
      else ([], some (some p,
        Node.call (.member (.ident recv none) "route") [.strLit p none] bs be blead none)))
      from ?_]
    · simp [show httpMethods.contains "route" = false from rfl]
      rfl
    · unfold collectChain
      rcases hrecv with h | h <;> subst h <;> simp [Node.name, Node.value, httpMethods]
  | append_singleton segs sd ih =>
    intro hm
    rw [mkChain_append]
    have hmsd : httpMethods.contains sd.method = true :=
      hm sd (List.mem_append.mpr (Or.inr (List.mem_singleton.mpr rfl)))
    unfold collectChain
    rw [if_pos ?c1]
    case c1 => exact hmsd
    rw [ih (fun x hx => hm x (List.mem_append.mpr (Or.inl hx)))]
    rw [chainSegsAux_append]

end Docgen
namespace Docgen

theorem preorder_leaf (par : Option Node) (a : Node) (h : isLeafNode a = true) :
    preorderCallsP par a = [] := by
  cases a <;> simp [isLeafNode] at h <;> rfl

theorem preorder_leafList (par : Option Node) :
    ∀ (args : List Node), (∀ a ∈ args, isLeafNode a = true) →
      preorderCallsList par args = [] := by
  intro args
  induction args with
  | nil => intro _; rfl
  | cons a rest ih =>
    intro h
    unfold preorderCallsList
    rw [preorder_leaf par a (h a (List.mem_cons_self a rest)),
      ih (fun x hx => h x (List.mem_cons_of_mem a hx))]
    rfl

theorem mkChain_isCall :
    ∀ (segs : List SegSpec) (b : Node), b.isCall = true →
      (mkChain b segs).isCall = true := by
  intro segs
  induction segs with
  | nil => intro b h; exact h
  | cons sd rest ih =>
    intro b h
    unfold mkChain
    rw [List.foldl_cons]
    exact ih _ rfl

theorem directRoutes_objCall (par : Option Node) (obj : Node) (m : String)
    (args : List Node) (s e : Nat) (l t : Option (List String))
    (h : obj.isCall = true) :
    directRoutes par (.call (.member obj m) args s e l t) = .ok [] := by
  cases obj <;> simp [Node.isCall] at h
  simp [directRoutes, Node.name]

theorem directRoutes_base (par : Option Node) (recv p : String) (bs be : Nat)
    (blead : Option (List String)) :
    directRoutes par (mkBaseCall recv p bs be blead) = .ok [] := by
  unfold directRoutes mkBaseCall
  simp [show ("route" : String) ∉ httpMethods from by decide]

theorem chainedStep_base (processed : List String) (par : Option Node)
    (recv p : String) (bs be : Nat) (blead : Option (List String)) :
    chainedStep processed par (mkBaseCall recv p bs be blead) =
      .ok ([], processed) := by
  unfold chainedStep mkBaseCall
  simp [Node.isCall]

theorem visit_noop (st : PState) (par : Option Node) (n : Node)
    (h1 : directRoutes par n = .ok [])
    (h2 : chainedStep st.processed par n = .ok ([], st.processed)) :
    visit st par n = .ok st := by
  unfold visit
  rw [h1, h2]
  simp [bind, Except.bind]

end Docgen
namespace Docgen

theorem foldSkip (recv p : String) (bs be : Nat) (blead : Option (List String)) :
    ∀ (segs : List SegSpec) (par : Option Node) (st : PState),
      (∀ sd ∈ segs, ∀ a ∈ sd.args, isLeafNode a = true) →
      (∀ (segs' : List SegSpec) (par' : Option Node), segs' ≠ [] →
        (∀ x ∈ segs', x ∈ segs) →
        chainedStep st.processed par' (mkChain (mkBaseCall recv p bs be blead) segs') =
          .ok ([], st.processed)) →
      List.foldlM (fun s pn => visit s pn.1 pn.2) st
        (preorderCallsP par (mkChain (mkBaseCall recv p bs be blead) segs)) =
        .ok st := by
  intro segs
  induction segs using List.reverseRecOn with
  | nil =>
    intro par st _ _
    have hpre : preorderCallsP par (mkChain (mkBaseCall recv p bs be blead) []) =
        [(par, mkBaseCall recv p bs be blead)] := by
      unfold mkChain mkBaseCall
      simp only [List.foldl_nil]
      rfl
    rw [hpre]
    simp only [List.foldlM_cons, List.foldlM_nil]
    rw [visit_noop st par _ (directRoutes_base par recv p bs be blead)
      (chainedStep_base st.processed par recv p bs be blead)]
    rfl
  | append_singleton segs sd ih =>
    intro par st hleaf hskip
    rw [mkChain_append]
    have hsdleaf : ∀ a ∈ sd.args, isLeafNode a = true :=
      hleaf sd (List.mem_append.mpr (Or.inr (List.mem_singleton.mpr rfl)))
    have hpre : preorderCallsP par
        (Node.call (.member (mkChain (mkBaseCall recv p bs be blead) segs) sd.method)
          sd.args sd.spanS sd.spanE sd.lead sd.trail) =
        (par, Node.call (.member (mkChain (mkBaseCall recv p bs be blead) segs) sd.method)
          sd.args sd.spanS sd.spanE sd.lead sd.trail) ::
        preorderCallsP
          (some (Node.member (mkChain (mkBaseCall recv p bs be blead) segs) sd.method))
          (mkChain (mkBaseCall recv p bs be blead) segs) := by
      rw [show preorderCallsP par
          (Node.call (.member (mkChain (mkBaseCall recv p bs be blead) segs) sd.method)
            sd.args sd.spanS sd.spanE sd.lead sd.trail) =
        (par, Node.call (.member (mkChain (mkBaseCall recv p bs be blead) segs) sd.method)
          sd.args sd.spanS sd.spanE sd.lead sd.trail) ::
        (preorderCallsP
          (some (Node.call (.member (mkChain (mkBaseCall recv p bs be blead) segs) sd.method)
            sd.args sd.spanS sd.spanE sd.lead sd.trail))
          (Node.member (mkChain (mkBaseCall recv p bs be blead) segs) sd.method) ++
         preorderCallsList
          (some (Node.call (.member (mkChain (mkBaseCall recv p bs be blead) segs) sd.method)
            sd.args sd.spanS sd.spanE sd.lead sd.trail)) sd.args) from rfl]
      rw [preorder_leafList _ sd.args hsdleaf]
      rw [show preorderCallsP
          (some (Node.call (.member (mkChain (mkBaseCall recv p bs be blead) segs) sd.method)
            sd.args sd.spanS sd.spanE sd.lead sd.trail))
          (Node.member (mkChain (mkBaseCall recv p bs be blead) segs) sd.method) =
        preorderCallsP
          (some (Node.member (mkChain (mkBaseCall recv p bs be blead) segs) sd.method))
          (mkChain (mkBaseCall recv p bs be blead) segs) from rfl]
      simp
    rw [hpre]
    simp only [List.foldlM_cons]
    have hvisit : visit st par
        (Node.call (.member (mkChain (mkBaseCall recv p bs be blead) segs) sd.method)
          sd.args sd.spanS sd.spanE sd.lead sd.trail) = .ok st := by
      apply visit_noop
      · exact directRoutes_objCall par _ _ _ _ _ _ _ (mkChain_isCall segs _ rfl)
      · have := hskip (segs ++ [sd]) par (by simp) (fun x hx => hx)
        rw [mkChain_append] at this
        exact this
    rw [hvisit]
    simp only [bind, Except.bind]
    exact ih (some (Node.member (mkChain (mkBaseCall recv p bs be blead) segs) sd.method))
      st (fun x hx => hleaf x (List.mem_append.mpr (Or.inl hx)))
      (fun segs' par' hne hsub =>
        hskip segs' par' hne (fun x hx => List.mem_append.mpr (Or.inl (hsub x hx))))

end Docgen
namespace Docgen

theorem chainedStep_skip_unknown (recv : String) (bs be : Nat)
    (blead : Option (List String)) (hrecv : recv = "router" ∨ recv = "app")
    (processed : List String) (par' : Option Node) :
    ∀ (segs' : List SegSpec), segs' ≠ [] →
      (∀ sd ∈ segs', httpMethods.contains sd.method = true) →
      chainedStep processed par' (mkChain (mkBaseCall recv "" bs be blead) segs') =
        .ok ([], processed) := by
  intro segs' hne hm
  rcases List.eq_nil_or_concat segs' with h | ⟨L, sd, h⟩
  · exact absurd h hne
  · rw [List.concat_eq_append] at h
    subst h
    have hcoll := collectChain_mkChain recv "" bs be blead hrecv (L ++ [sd]) hm
    rw [mkChain_append] at hcoll ⊢
    have hmsd : httpMethods.contains sd.method = true :=
      hm sd (List.mem_append.mpr (Or.inr (List.mem_singleton.mpr rfl)))
    unfold chainedStep
    rw [hcoll]
    simp [mkChain_isCall L (mkBaseCall recv "" bs be blead) rfl, hmsd, jsOrStrD]

/-- C10: a chained registration whose base `route("")` call has the empty
string literal (a falsy value) as its path argument gets the route path
treated as unknown, and the entire chain is skipped: no Route record is
emitted for any method segment of the chain. -/
theorem claim_C10_empty_path_chain (recv : String) (bs be : Nat)
    (segs : List SegSpec)
    (hrecv : recv = "router" ∨ recv = "app")
    (hm : ∀ sd ∈ segs, httpMethods.contains sd.method = true ∧
      ∀ a ∈ sd.args, isLeafNode a = true) :
    parseTree (chainProgram (mkBaseCall recv "" bs be none) segs) = .ok [] := by
  unfold parseTree parseTraversal chainProgram
  have hpre : preorderCallsP none
      (Node.program [Node.exprStmt (mkChain (mkBaseCall recv "" bs be none) segs) none]) =
      preorderCallsP
        (some (Node.exprStmt (mkChain (mkBaseCall recv "" bs be none) segs) none))
        (mkChain (mkBaseCall recv "" bs be none) segs) := by
    rw [show preorderCallsP none
        (Node.program [Node.exprStmt (mkChain (mkBaseCall recv "" bs be none) segs) none]) =
      preorderCallsP
        (some (Node.exprStmt (mkChain (mkBaseCall recv "" bs be none) segs) none))
        (mkChain (mkBaseCall recv "" bs be none) segs) ++ [] from rfl]
    simp
  rw [hpre]
  rw [foldSkip recv "" bs be none segs _ ⟨[], []⟩
    (fun sd hsd => (hm sd hsd).2)
    (fun segs' par' hne hsub =>
      chainedStep_skip_unknown recv bs be none hrecv [] par' segs' hne
        (fun x hx => (hm x (hsub x hx)).1))]
  rfl

end Docgen
namespace Docgen

theorem extractChained_ok (node stmt : Node) (prev : Option Node) (isF : Bool)
    (h1 : node.leading = none)
    (h2 : ∀ la, node.argsOf.getLast? = some la → la.leading = none)
    (h3 : stmt.leading = none)
    (h4 : ∀ pn, prev = some pn → pn.trailing = none) :
    extractChainedRouteMetadata node isF stmt prev = .ok ("", []) := by
  have hln : leadNonempty node = false := by simp [leadNonempty, h1]
  have hls : leadNonempty stmt = false := by simp [leadNonempty, h3]
  unfold extractChainedRouteMetadata
  simp only [hln, hls, Bool.false_eq_true, if_false, Bool.and_false]
  cases hgl : node.argsOf.getLast? with
  | none =>
    cases prev with
    | none => cases isF <;> rfl
    | some pn =>
      have h := h4 pn rfl
      cases isF <;> simp only [h] <;> rfl
  | some la =>
    have hla : leadNonempty la = false := by simp [leadNonempty, h2 la hgl]
    simp only [hla, Bool.false_eq_true, if_false]
    cases prev with
    | none => cases isF <;> rfl
    | some pn =>
      have h := h4 pn rfl
      cases isF <;> simp only [h] <;> rfl

theorem routeParamsAndMeta_nil (rp : String) :
    ∃ meta2, routeParamsAndMeta [] rp = .ok ((normalizeExpressPath rp).1, meta2) := by
  unfold routeParamsAndMeta originalParamsOf
  have hget : metaGet [] "param" = none := rfl
  rw [hget]
  exact ⟨_, rfl⟩

theorem foldlM_emit {γ : Type} (step : List Route → γ → Except JsErr (List Route))
    (f : γ → String) :
    ∀ (l : List γ),
      (∀ x ∈ l, ∀ acc, ∃ r, step acc x = .ok (acc ++ [r]) ∧ r.method = f x) →
      ∀ acc0, ∃ rs, l.foldlM step acc0 = .ok (acc0 ++ rs) ∧
        rs.map Route.method = l.map f := by
  intro l
  induction l with
  | nil => intro _ acc0; exact ⟨[], by simp only [List.foldlM_nil, List.append_nil]; rfl, rfl⟩
  | cons x rest ih =>
    intro h acc0
    obtain ⟨r, hr, hrm⟩ := h x (List.mem_cons_self x rest) acc0
    obtain ⟨rs, hrs, hrsm⟩ := ih (fun y hy => h y (List.mem_cons_of_mem x hy)) (acc0 ++ [r])
    refine ⟨r :: rs, ?_, ?_⟩
    · simp only [List.foldlM_cons, hr, bind, Except.bind]
      rw [hrs]
      simp
    · simp [hrm, hrsm]

theorem mem_of_mem_enumFrom {γ : Type} :
    ∀ (l : List γ) (n i : Nat) (x : γ), (i, x) ∈ l.enumFrom n → x ∈ l := by
  intro l
  induction l with
  | nil => intro n i x h; simp [List.enumFrom] at h
  | cons a rest ih =>
    intro n i x h
    rw [List.enumFrom] at h
    rcases List.mem_cons.mp h with h1 | h1
    · cases h1; exact List.mem_cons_self a rest
    · exact List.mem_cons_of_mem a (ih (n + 1) i x h1)

theorem enumFrom_map_snd_comp {γ : Type} (g : γ → String) :
    ∀ (l : List γ) (n : Nat),
      (l.enumFrom n).map (fun ix => g ix.2) = l.map g := by
  intro l
  induction l with
  | nil => intro n; rfl
  | cons a rest ih =>
    intro n
    rw [List.enumFrom, List.map_cons, List.map_cons, ih (n + 1)]

end Docgen
namespace Docgen

theorem getLastMem {γ : Type} : ∀ (l : List γ) (a : γ), l.getLast? = some a → a ∈ l := by
  intro l
  induction l with
  | nil => intro a h; simp [List.getLast?] at h
  | cons x rest ih =>
    intro a h
    cases rest with
    | nil =>
      simp [List.getLast?] at h
      subst h
      exact List.mem_cons_self x []
    | cons y ys =>
      rw [List.getLast?_cons_cons] at h
      exact List.mem_cons_of_mem x (ih a h)

theorem chainSegsAux_length (segs : List SegSpec) (acc : Node) :
    (chainSegsAux acc segs).length = segs.length := by
  have h := congrArg List.length (chainSegsAux_methods segs acc)
  simpa using h

theorem chainEmit_ok (chainMethods : List ChainSeg) (stmtE : Node) (p : String)
    (hstmtL : stmtE.leading = none)
    (hcm : ∀ cm ∈ chainMethods, cm.node.leading = none ∧ cm.node.trailing = none ∧
      ∀ la, cm.node.argsOf.getLast? = some la → la.leading = none) :
    ∀ x ∈ chainMethods.enum, ∀ acc : List Route, ∃ r,
      chainEmit chainMethods stmtE p acc x = .ok (acc ++ [r]) ∧
      r.method = x.2.method := by
  rintro ⟨index, mi⟩ hx acc
  have hmem : mi ∈ chainMethods := mem_of_mem_enumFrom _ 0 index mi hx
  obtain ⟨hl, ht, hargs⟩ := hcm mi hmem
  have hextract : extractChainedRouteMetadata mi.node (index == 0) stmtE
      (if index > 0 then (chainMethods.get? (index - 1)).map (·.node) else none) =
      .ok ("", []) := by
    apply extractChained_ok
    · exact hl
    · exact hargs
    · exact hstmtL
    · intro pn hpn
      by_cases hi : index > 0
      · rw [if_pos hi] at hpn
        cases hg : chainMethods.get? (index - 1) with
        | none => rw [hg] at hpn; simp at hpn
        | some cm2 =>
          rw [hg] at hpn
          have hpn2 : cm2.node = pn := by simpa using hpn
          rw [← hpn2]
          exact (hcm cm2 (List.get?_mem hg)).2.1
      · rw [if_neg hi] at hpn
        simp at hpn
  obtain ⟨meta2, hrpm⟩ := routeParamsAndMeta_nil p
  refine ⟨Route.mk mi.method (normalizeExpressPath p).1 ""
    (mi.args.dropLast.map middlewareName) meta2, ?_, rfl⟩
  unfold chainEmit
  dsimp only
  rw [hextract]
  simp only [bind, Except.bind]
  rw [hrpm]

end Docgen
namespace Docgen

theorem chainedStep_process (recv p : String) (bs be : Nat)
    (hrecv : recv = "router" ∨ recv = "app") (hp1 : p ≠ "") (hp2 : p ≠ "<unknown>")
    (processed : List String) (stmtE : Node)
    (hstmtE : stmtE.isExprStmt = true) (hstmtL : stmtE.leading = none)
    (segs : List SegSpec) (hne : segs ≠ [])
    (hvalid : ∀ sd ∈ segs, httpMethods.contains sd.method = true ∧ sd.lead = none ∧
      sd.trail = none ∧ ∀ a ∈ sd.args, isLeafNode a = true ∧ a.leading = none)
    (hkey : processed.contains (p ++ ":" ++ toString bs ++ ":" ++ toString be) = false) :
    ∃ routes,
      chainedStep processed (some stmtE)
        (mkChain (mkBaseCall recv p bs be none) segs) =
        .ok (routes, processed ++ [p ++ ":" ++ toString bs ++ ":" ++ toString be]) ∧
      routes.map (fun r => r.method) = segs.map (fun sd => jsToUpper sd.method) := by
  rcases List.eq_nil_or_concat segs with h | ⟨L, sd, h⟩
  · exact absurd h hne
  rw [List.concat_eq_append] at h
  subst h
  have hcoll := collectChain_mkChain recv p bs be none hrecv (L ++ [sd])
    (fun x hx => (hvalid x hx).1)
  rw [mkChain_append] at hcoll ⊢
  have hmsd : httpMethods.contains sd.method = true :=
    (hvalid sd (List.mem_append.mpr (Or.inr (List.mem_singleton.mpr rfl)))).1
  have hlen : 0 < (chainSegsAux (mkBaseCall recv p bs be none) (L ++ [sd])).length := by
    rw [chainSegsAux_length]
    simp
  have hcmprop : ∀ cm ∈ chainSegsAux (mkBaseCall recv p bs be none) (L ++ [sd]),
      cm.node.leading = none ∧ cm.node.trailing = none ∧
      ∀ la, cm.node.argsOf.getLast? = some la → la.leading = none := by
    intro cm hcmm
    obtain ⟨sd2, hsd2, _, _, hlead, htrail, hargsOf⟩ :=
      chainSegsAux_mem (L ++ [sd]) _ cm hcmm
    obtain ⟨_, hsl, hst, hargsP⟩ := hvalid sd2 hsd2
    refine ⟨by rw [hlead, hsl], by rw [htrail, hst], ?_⟩
    intro la hla
    rw [hargsOf] at hla
    exact (hargsP la (getLastMem _ la hla)).2
  obtain ⟨rs, hrs, hmap⟩ := foldlM_emit
    (chainEmit (chainSegsAux (mkBaseCall recv p bs be none) (L ++ [sd])) stmtE p)
    (fun im => im.2.method)
    (chainSegsAux (mkBaseCall recv p bs be none) (L ++ [sd])).enum
    (chainEmit_ok _ stmtE p hstmtL hcmprop) []
  have hmap2 : rs.map (fun r => r.method) =
      (L ++ [sd]).map (fun x => jsToUpper x.method) := by
    rw [show (rs.map fun r => r.method) = rs.map Route.method from rfl, hmap]
    rw [show ((chainSegsAux (mkBaseCall recv p bs be none) (L ++ [sd])).enum.map
        fun im => im.2.method) =
      ((chainSegsAux (mkBaseCall recv p bs be none) (L ++ [sd])).enumFrom 0).map
        (fun ix => ChainSeg.method ix.2) from rfl]
    rw [enumFrom_map_snd_comp]
    rw [show ((chainSegsAux (mkBaseCall recv p bs be none) (L ++ [sd])).map
        ChainSeg.method) =
      ((chainSegsAux (mkBaseCall recv p bs be none) (L ++ [sd])).map
        fun cm => cm.method) from rfl]
    rw [chainSegsAux_methods]
  refine ⟨rs, ?_, hmap2⟩
  unfold chainedStep
  rw [hcoll]
  simp only [mkChain_isCall L (mkBaseCall recv p bs be none) rfl, hmsd,
    Bool.and_self, if_true]
  rw [show jsOrStrD (some p) "<unknown>" = p from by simp [jsOrStrD, hp1]]
  rw [if_pos ?cond]
  case cond =>
    simp [hp2, hlen]
  rw [show Node.spanStart (mkBaseCall recv p bs be none) = bs from rfl,
    show Node.spanEnd (mkBaseCall recv p bs be none) = be from rfl]
  rw [if_neg ?nk]
  case nk =>
    rw [hkey]
    simp
  simp only [hstmtE, if_true]
  rw [show ([] : List Route) ++ rs = rs from by simp] at hrs
  simp only [bind, Except.bind]
  rw [hrs]

end Docgen
namespace Docgen

theorem chainedStep_skip_processed (recv p : String) (bs be : Nat)
    (hrecv : recv = "router" ∨ recv = "app") (hp1 : p ≠ "") (hp2 : p ≠ "<unknown>")
    (processed : List String) (par : Option Node)
    (segs : List SegSpec) (hne : segs ≠ [])
    (hm : ∀ sd ∈ segs, httpMethods.contains sd.method = true)
    (hkey : processed.contains (p ++ ":" ++ toString bs ++ ":" ++ toString be) = true) :
    chainedStep processed par (mkChain (mkBaseCall recv p bs be none) segs) =
      .ok ([], processed) := by
  rcases List.eq_nil_or_concat segs with h | ⟨L, sd, h⟩
  · exact absurd h hne
  rw [List.concat_eq_append] at h
  subst h
  have hcoll := collectChain_mkChain recv p bs be none hrecv (L ++ [sd]) hm
  rw [mkChain_append] at hcoll ⊢
  have hmsd : httpMethods.contains sd.method = true :=
    hm sd (List.mem_append.mpr (Or.inr (List.mem_singleton.mpr rfl)))
  unfold chainedStep
  rw [hcoll]
  simp only [mkChain_isCall L (mkBaseCall recv p bs be none) rfl, hmsd,
    Bool.and_self, if_true]
  rw [show jsOrStrD (some p) "<unknown>" = p from by simp [jsOrStrD, hp1]]
  rw [if_pos ?cnd]
  case cnd =>
    have hlen : 0 < (chainSegsAux (mkBaseCall recv p bs be none) (L ++ [sd])).length := by
      rw [chainSegsAux_length]
      simp
    simp [hp2, hlen]
  rw [show Node.spanStart (mkBaseCall recv p bs be none) = bs from rfl,
    show Node.spanEnd (mkBaseCall recv p bs be none) = be from rfl]
  rw [if_pos ?pk]
  case pk => exact hkey

theorem chainedStep_processed_shape (processed : List String) (par : Option Node)
    (n : Node) (res : List Route × List String)
    (h : chainedStep processed par n = .ok res) :
    res.2 = processed ∨ ∃ k, ¬ k ∈ processed ∧ res.2 = processed ++ [k] := by
  cases n with
  | call callee args s e l t =>
    cases callee with
    | member obj prop =>
      unfold chainedStep at h
      dsimp only at h
      by_cases hc : (obj.isCall && httpMethods.contains prop) = true
      · rw [if_pos hc] at h
        cases hcc : collectChain (Node.call (.member obj prop) args s e l t) with
        | mk cms bi =>
          rw [hcc] at h
          dsimp only at h
          cases bi with
          | none =>
            simp only [Except.ok.injEq] at h
            subst h
            exact Or.inl rfl
          | some pb =>
            cases pb with
            | mk pathVal baseRouteCall =>
              dsimp only at h
              by_cases h2 : (decide (jsOrStrD pathVal "<unknown>" ≠ "<unknown>") &&
                  decide (cms.length > 0)) = true
              · rw [if_pos h2] at h
                by_cases h3 : processed.contains
                    (jsOrStrD pathVal "<unknown>" ++ ":" ++
                      toString baseRouteCall.spanStart ++ ":" ++
                      toString baseRouteCall.spanEnd) = true
                · rw [if_pos h3] at h
                  simp only [Except.ok.injEq] at h
                  subst h
                  exact Or.inl rfl
                · rw [if_neg ?g3] at h
                  case g3 => exact h3
                  simp only [bind, Except.bind] at h
                  revert h
                  cases hf : List.foldlM
                      (chainEmit cms
                        (match par with
                         | some q => if q.isExprStmt then q else baseRouteCall
                         | none => baseRouteCall)
                        (jsOrStrD pathVal "<unknown>")) []
                      cms.enum with
                  | error e2 =>
                    intro h
                    simp at h
                  | ok routes =>
                    intro h
                    simp only [Except.ok.injEq] at h
                    subst h
                    refine Or.inr ⟨_, ?_, rfl⟩
                    intro hmem
                    exact h3 (List.elem_iff.mpr hmem)
              · rw [if_neg ?g2] at h
                case g2 => exact h2
                simp only [Except.ok.injEq] at h
                subst h
                exact Or.inl rfl
      · rw [if_neg ?g1] at h
        case g1 => exact hc
        simp only [Except.ok.injEq] at h
        subst h
        exact Or.inl rfl
    | call c2 a2 s2 e2 l2 t2 =>
      have h2 : (Except.ok ([], processed) :
          Except JsErr (List Route × List String)) = Except.ok res := h
      injection h2 with h3
      rw [← h3]
      exact Or.inl rfl
    | ident nm ld =>
      have h2 : (Except.ok ([], processed) :
          Except JsErr (List Route × List String)) = Except.ok res := h
      injection h2 with h3
      rw [← h3]
      exact Or.inl rfl
    | strLit v ld =>
      have h2 : (Except.ok ([], processed) :
          Except JsErr (List Route × List String)) = Except.ok res := h
      injection h2 with h3
      rw [← h3]
      exact Or.inl rfl
    | exprStmt e2 ld =>
      have h2 : (Except.ok ([], processed) :
          Except JsErr (List Route × List String)) = Except.ok res := h
      injection h2 with h3
      rw [← h3]
      exact Or.inl rfl
    | program b2 =>
      have h2 : (Except.ok ([], processed) :
          Except JsErr (List Route × List String)) = Except.ok res := h
      injection h2 with h3
      rw [← h3]
      exact Or.inl rfl
    | anon ld =>
      have h2 : (Except.ok ([], processed) :
          Except JsErr (List Route × List String)) = Except.ok res := h
      injection h2 with h3
      rw [← h3]
      exact Or.inl rfl
  | member obj prop =>
    have h2 : (Except.ok ([], processed) :
        Except JsErr (List Route × List String)) = Except.ok res := h
    injection h2 with h3
    rw [← h3]
    exact Or.inl rfl
  | ident nm ld =>
    have h2 : (Except.ok ([], processed) :
        Except JsErr (List Route × List String)) = Except.ok res := h
    injection h2 with h3
    rw [← h3]
    exact Or.inl rfl
  | strLit v ld =>
    have h2 : (Except.ok ([], processed) :
        Except JsErr (List Route × List String)) = Except.ok res := h
    injection h2 with h3
    rw [← h3]
    exact Or.inl rfl
  | exprStmt e2 ld =>
    have h2 : (Except.ok ([], processed) :
        Except JsErr (List Route × List String)) = Except.ok res := h
    injection h2 with h3
    rw [← h3]
    exact Or.inl rfl
  | program b2 =>
    have h2 : (Except.ok ([], processed) :
        Except JsErr (List Route × List String)) = Except.ok res := h
    injection h2 with h3
    rw [← h3]
    exact Or.inl rfl
  | anon ld =>
    have h2 : (Except.ok ([], processed) :
        Except JsErr (List Route × List String)) = Except.ok res := h
    injection h2 with h3
    rw [← h3]
    exact Or.inl rfl

end Docgen
namespace Docgen

theorem visit_processed_nodup (st : PState) (par : Option Node) (n : Node)
    (st2 : PState) (h : visit st par n = .ok st2) (hn : st.processed.Nodup) :
    st2.processed.Nodup := by
  unfold visit at h
  cases hd : directRoutes par n with
  | error e => rw [hd] at h; simp [bind, Except.bind] at h
  | ok r1 =>
    rw [hd] at h
    simp only [bind, Except.bind] at h
    revert h
    cases hc : chainedStep st.processed par n with
    | error e => intro h; simp at h
    | ok pr =>
      intro h
      cases pr with
      | mk r2 processed2 =>
        simp only [Except.ok.injEq] at h
        rcases chainedStep_processed_shape st.processed par n (r2, processed2) hc
          with h1 | ⟨k, hk, h1⟩
        · rw [← h]
          have h2 : processed2 = st.processed := h1
          simpa [h2] using hn
        · rw [← h]
          have h2 : processed2 = st.processed ++ [k] := h1
          simp only [h2]
          simp [List.nodup_append, hn, hk]

theorem foldNodup :
    ∀ (l : List (Option Node × Node)) (st st2 : PState),
      st.processed.Nodup →
      List.foldlM (fun s pn => visit s pn.1 pn.2) st l = .ok st2 →
      st2.processed.Nodup := by
  intro l
  induction l with
  | nil =>
    intro st st2 hn h
    simp only [List.foldlM_nil] at h
    have h2 : (Except.ok st : Except JsErr PState) = Except.ok st2 := h
    injection h2 with h3
    rw [← h3]
    exact hn
  | cons x rest ih =>
    intro st st2 hn h
    rw [List.foldlM_cons] at h
    revert h
    cases hv : visit st x.1 x.2 with
    | error e => intro h; simp [bind, Except.bind] at h
    | ok st1 =>
      intro h
      simp only [bind, Except.bind] at h
      exact ih st1 st2 (visit_processed_nodup st x.1 x.2 st1 hv hn) h

end Docgen
namespace Docgen

theorem chainProgram_routes (recv p : String) (bs be : Nat) (segs : List SegSpec)
    (hrecv : recv = "router" ∨ recv = "app") (hp1 : p ≠ "") (hp2 : p ≠ "<unknown>")
    (hne : segs ≠ [])
    (hvalid : ∀ sd ∈ segs, httpMethods.contains sd.method = true ∧ sd.lead = none ∧
      sd.trail = none ∧ ∀ a ∈ sd.args, isLeafNode a = true ∧ a.leading = none) :
    ∃ routes,
      parseTree (chainProgram (mkBaseCall recv p bs be none) segs) = .ok routes ∧
      routes.length = segs.length ∧
      routes.map (fun r => r.method) = segs.map (fun sd => jsToUpper sd.method) := by
  obtain ⟨rs, hstep, hmap⟩ := chainedStep_process recv p bs be hrecv hp1 hp2 []
    (Node.exprStmt (mkChain (mkBaseCall recv p bs be none) segs) none)
    rfl rfl segs hne hvalid rfl
  refine ⟨rs, ?_, ?_, hmap⟩
  · unfold parseTree parseTraversal chainProgram
    have hpre0 : preorderCallsP none
        (Node.program [Node.exprStmt (mkChain (mkBaseCall recv p bs be none) segs) none]) =
        preorderCallsP
          (some (Node.exprStmt (mkChain (mkBaseCall recv p bs be none) segs) none))
          (mkChain (mkBaseCall recv p bs be none) segs) := by
      rw [show preorderCallsP none
          (Node.program [Node.exprStmt (mkChain (mkBaseCall recv p bs be none) segs) none]) =
        preorderCallsP
          (some (Node.exprStmt (mkChain (mkBaseCall recv p bs be none) segs) none))
          (mkChain (mkBaseCall recv p bs be none) segs) ++ [] from rfl]
      simp
    rw [hpre0]
    rcases List.eq_nil_or_concat segs with h | ⟨L, sd, h⟩
    · exact absurd h hne
    rw [List.concat_eq_append] at h
    subst h
    rw [mkChain_append] at hstep ⊢
    have hsdleaf : ∀ a ∈ sd.args, isLeafNode a = true := by
      intro a ha
      exact ((hvalid sd (List.mem_append.mpr (Or.inr (List.mem_singleton.mpr rfl)))).2.2.2
        a ha).1
    have hpre : preorderCallsP
        (some (Node.exprStmt
          (Node.call (.member (mkChain (mkBaseCall recv p bs be none) L) sd.method)
            sd.args sd.spanS sd.spanE sd.lead sd.trail) none))
        (Node.call (.member (mkChain (mkBaseCall recv p bs be none) L) sd.method)
          sd.args sd.spanS sd.spanE sd.lead sd.trail) =
        (some (Node.exprStmt
          (Node.call (.member (mkChain (mkBaseCall recv p bs be none) L) sd.method)
            sd.args sd.spanS sd.spanE sd.lead sd.trail) none),
         Node.call (.member (mkChain (mkBaseCall recv p bs be none) L) sd.method)
          sd.args sd.spanS sd.spanE sd.lead sd.trail) ::
        preorderCallsP
          (some (Node.member (mkChain (mkBaseCall recv p bs be none) L) sd.method))
          (mkChain (mkBaseCall recv p bs be none) L) := by
      rw [show preorderCallsP
          (some (Node.exprStmt
            (Node.call (.member (mkChain (mkBaseCall recv p bs be none) L) sd.method)
              sd.args sd.spanS sd.spanE sd.lead sd.trail) none))
          (Node.call (.member (mkChain (mkBaseCall recv p bs be none) L) sd.method)
            sd.args sd.spanS sd.spanE sd.lead sd.trail) =
        (some (Node.exprStmt
          (Node.call (.member (mkChain (mkBaseCall recv p bs be none) L) sd.method)
            sd.args sd.spanS sd.spanE sd.lead sd.trail) none),
         Node.call (.member (mkChain (mkBaseCall recv p bs be none) L) sd.method)
          sd.args sd.spanS sd.spanE sd.lead sd.trail) ::
        (preorderCallsP
          (some (Node.call (.member (mkChain (mkBaseCall recv p bs be none) L) sd.method)
            sd.args sd.spanS sd.spanE sd.lead sd.trail))
          (Node.member (mkChain (mkBaseCall recv p bs be none) L) sd.method) ++
         preorderCallsList
          (some (Node.call (.member (mkChain (mkBaseCall recv p bs be none) L) sd.method)
            sd.args sd.spanS sd.spanE sd.lead sd.trail)) sd.args) from rfl]
      rw [preorder_leafList _ sd.args hsdleaf]
      rw [show preorderCallsP
          (some (Node.call (.member (mkChain (mkBaseCall recv p bs be none) L) sd.method)
            sd.args sd.spanS sd.spanE sd.lead sd.trail))
          (Node.member (mkChain (mkBaseCall recv p bs be none) L) sd.method) =
        preorderCallsP
          (some (Node.member (mkChain (mkBaseCall recv p bs be none) L) sd.method))
          (mkChain (mkBaseCall recv p bs be none) L) from rfl]
      simp
    rw [hpre]
    simp only [List.foldlM_cons]
    have hvisit : visit ⟨[], []⟩
        (some (Node.exprStmt
          (Node.call (.member (mkChain (mkBaseCall recv p bs be none) L) sd.method)
            sd.args sd.spanS sd.spanE sd.lead sd.trail) none))
        (Node.call (.member (mkChain (mkBaseCall recv p bs be none) L) sd.method)
          sd.args sd.spanS sd.spanE sd.lead sd.trail) =
        .ok ⟨rs, [p ++ ":" ++ toString bs ++ ":" ++ toString be]⟩ := by
      unfold visit
      rw [directRoutes_objCall _ _ _ _ _ _ _ _ (mkChain_isCall L (mkBaseCall recv p bs be none) rfl)]
      simp only [bind, Except.bind]
      rw [hstep]
      simp
    rw [hvisit]
    simp only [bind, Except.bind]
    have hfold := foldSkip recv p bs be none L
      (some (Node.member (mkChain (mkBaseCall recv p bs be none) L) sd.method))
      ⟨rs, [p ++ ":" ++ toString bs ++ ":" ++ toString be]⟩
      (fun x hx a ha => ((hvalid x (List.mem_append.mpr (Or.inl hx))).2.2.2 a ha).1)
      (fun segs2 par2 hne2 hsub2 =>
        chainedStep_skip_processed recv p bs be hrecv hp1 hp2
          [p ++ ":" ++ toString bs ++ ":" ++ toString be] par2 segs2 hne2
          (fun x hx => (hvalid x (List.mem_append.mpr (Or.inl (hsub2 x hx)))).1)
          (by simp))
    rw [hfold]
    rfl
  · have hlen := congrArg List.length hmap
    simpa using hlen
end Docgen
namespace Docgen

/-- C1: each distinct chain identity is processed at most once per
traversal (the `processedChains` set never acquires a duplicate key), and
a chain of n HTTP-method segments on one `route(path)` builder with a
truthy literal path yields exactly n Route records, one per segment in
chain order, even though the walk visits every method-call node of the
chain. -/
theorem claim_C1_chain_dedup :
    (∀ (t : Node) (st : PState), parseTraversal t = .ok st → st.processed.Nodup) ∧
    (∀ (recv p : String) (bs be : Nat) (segs : List SegSpec),
      (recv = "router" ∨ recv = "app") → p ≠ "" → p ≠ "<unknown>" → segs ≠ [] →
      (∀ sd ∈ segs, httpMethods.contains sd.method = true ∧ sd.lead = none ∧
        sd.trail = none ∧ ∀ a ∈ sd.args, isLeafNode a = true ∧ a.leading = none) →
      ∃ routes,
        parseTree (chainProgram (mkBaseCall recv p bs be none) segs) = .ok routes ∧
        routes.length = segs.length ∧
        routes.map (fun r => r.method) = segs.map (fun sd => jsToUpper sd.method)) := by
  constructor
  · intro t st h
    exact foldNodup (preorderCallsP none t) ⟨[], []⟩ st List.nodup_nil h
  · intro recv p bs be segs h1 h2 h3 h4 h5
    exact chainProgram_routes recv p bs be segs h1 h2 h3 h4 h5

theorem claim_C1_witness :
    ∃ routes,
      parseTree (chainProgram (mkBaseCall "router" "/x" 0 9 none)
        [SegSpec.mk "get" [Node.anon none] 10 14 none none,
         SegSpec.mk "post" [Node.anon none] 15 20 none none,
         SegSpec.mk "delete" [Node.anon none] 21 27 none none]) = .ok routes ∧
      routes.length =
        [SegSpec.mk "get" [Node.anon none] 10 14 none none,
         SegSpec.mk "post" [Node.anon none] 15 20 none none,
         SegSpec.mk "delete" [Node.anon none] 21 27 none none].length ∧
      routes.map (fun r => r.method) =
        [SegSpec.mk "get" [Node.anon none] 10 14 none none,
         SegSpec.mk "post" [Node.anon none] 15 20 none none,
         SegSpec.mk "delete" [Node.anon none] 21 27 none none].map
          (fun sd => jsToUpper sd.method) :=
  claim_C1_chain_dedup.2 "router" "/x" 0 9
    [SegSpec.mk "get" [Node.anon none] 10 14 none none,
     SegSpec.mk "post" [Node.anon none] 15 20 none none,
     SegSpec.mk "delete" [Node.anon none] 21 27 none none]
    (Or.inl rfl) (by decide) (by decide) (by simp) (by decide)

theorem claim_C10_witness :
    parseTree (chainProgram (mkBaseCall "router" "" 1 9 none)
      [SegSpec.mk "get" [Node.anon none] 10 15 none none,
       SegSpec.mk "post" [Node.anon none] 16 22 none none]) = .ok [] :=
  claim_C10_empty_path_chain "router" 1 9
    [SegSpec.mk "get" [Node.anon none] 10 15 none none,
     SegSpec.mk "post" [Node.anon none] 16 22 none none]
    (Or.inl rfl) (by decide)

end Docgen
